import Mathlib

/-!
Verification of the Kociemba two-phase Rubik's cube solver.

This file gives a shallow embedding of the Rust sources
(`cubie_cube.rs`, `turn.rs`, `pruning_table.rs`, `solver.rs`) and proves or
refutes the specification claims about them.  Rust `u8`/`u16`/`usize` values
are modelled as `ℕ`; fixed-size arrays as `List ℕ` indexed with `getD _ 0`
(all source accesses are in range for the inputs considered); structs as
Lean structures.  Wrapping `u8` arithmetic is modelled explicitly where the
source can wrap (`u8sub`, the nibble packing).
-/

set_option maxRecDepth 100000
set_option maxHeartbeats 4000000

/-- Cubie-level cube state: corner/edge permutations and orientations.
Mirrors `struct CubieCube` in `cubie_cube.rs`. -/
structure CubieCube where
  cp : List ℕ
  co : List ℕ
  ep : List ℕ
  eo : List ℕ
deriving DecidableEq, Repr

namespace CubieCube

/-- The solved state (identity), `CubieCube::SOLVED`. -/
def SOLVED : CubieCube :=
  { cp := [0, 1, 2, 3, 4, 5, 6, 7]
    co := [0, 0, 0, 0, 0, 0, 0, 0]
    ep := [0, 1, 2, 3, 4, 5, 6, 7, 8, 9, 10, 11]
    eo := [0, 0, 0, 0, 0, 0, 0, 0, 0, 0, 0, 0] }

/-- Generator `CubieCube::U`. -/
def Ugen : CubieCube :=
  { cp := [3, 0, 1, 2, 4, 5, 6, 7]
    co := [0, 0, 0, 0, 0, 0, 0, 0]
    ep := [3, 0, 1, 2, 4, 5, 6, 7, 8, 9, 10, 11]
    eo := [0, 0, 0, 0, 0, 0, 0, 0, 0, 0, 0, 0] }

/-- Generator `CubieCube::R`. -/
def Rgen : CubieCube :=
  { cp := [4, 1, 2, 0, 7, 5, 6, 3]
    co := [2, 0, 0, 1, 1, 0, 0, 2]
    ep := [8, 1, 2, 3, 11, 5, 6, 7, 4, 9, 10, 0]
    eo := [0, 0, 0, 0, 0, 0, 0, 0, 0, 0, 0, 0] }

/-- Generator `CubieCube::F`. -/
def Fgen : CubieCube :=
  { cp := [1, 5, 2, 3, 0, 4, 6, 7]
    co := [1, 2, 0, 0, 2, 1, 0, 0]
    ep := [0, 9, 2, 3, 4, 8, 6, 7, 1, 5, 10, 11]
    eo := [0, 1, 0, 0, 0, 1, 0, 0, 1, 1, 0, 0] }

/-- Generator `CubieCube::D`. -/
def Dgen : CubieCube :=
  { cp := [0, 1, 2, 3, 5, 6, 7, 4]
    co := [0, 0, 0, 0, 0, 0, 0, 0]
    ep := [0, 1, 2, 3, 5, 6, 7, 4, 8, 9, 10, 11]
    eo := [0, 0, 0, 0, 0, 0, 0, 0, 0, 0, 0, 0] }

/-- Generator `CubieCube::L`. -/
def Lgen : CubieCube :=
  { cp := [0, 2, 6, 3, 4, 1, 5, 7]
    co := [0, 1, 2, 0, 0, 2, 1, 0]
    ep := [0, 1, 10, 3, 4, 5, 9, 7, 8, 2, 6, 11]
    eo := [0, 0, 0, 0, 0, 0, 0, 0, 0, 0, 0, 0] }

/-- Generator `CubieCube::B`. -/
def Bgen : CubieCube :=
  { cp := [0, 1, 3, 7, 4, 5, 2, 6]
    co := [0, 0, 1, 2, 0, 0, 2, 1]
    ep := [0, 1, 2, 11, 4, 5, 6, 10, 8, 9, 3, 7]
    eo := [0, 0, 0, 1, 0, 0, 0, 1, 0, 0, 1, 1] }

/-- Group multiplication `CubieCube::multiply`: `self * other`, i.e. apply
the transformation `other` to `self`.  Corner loop: permutation
`result.cp[i] = self.cp[other.cp[i]]` and orientation sum mod 3; edge loop
analogous mod 2. -/
def multiply (a b : CubieCube) : CubieCube :=
  { cp := (List.range 8).map fun i => a.cp.getD (b.cp.getD i 0) 0
    co := (List.range 8).map fun i => (a.co.getD (b.cp.getD i 0) 0 + b.co.getD i 0) % 3
    ep := (List.range 12).map fun i => a.ep.getD (b.ep.getD i 0) 0
    eo := (List.range 12).map fun i => (a.eo.getD (b.ep.getD i 0) 0 + b.eo.getD i 0) % 2 }

/-- `CubieCube::get_twist`: fold the first 7 corner orientations base 3. -/
def getTwist (c : CubieCube) : ℕ :=
  (List.range 7).foldl (fun twist i => 3 * twist + c.co.getD i 0) 0

/-- `CubieCube::get_flip`: fold the first 11 edge orientations base 2. -/
def getFlip (c : CubieCube) : ℕ :=
  (List.range 11).foldl (fun flip i => 2 * flip + c.eo.getD i 0) 0

end CubieCube

/-- The table `C_NK` of binomial coefficients from `cubie_cube.rs`. -/
def C_NK : List (List ℕ) :=
  [[1, 0, 0, 0, 0],
   [1, 1, 0, 0, 0],
   [1, 2, 1, 0, 0],
   [1, 3, 3, 1, 0],
   [1, 4, 6, 4, 1],
   [1, 5, 10, 10, 5],
   [1, 6, 15, 20, 15],
   [1, 7, 21, 35, 35],
   [1, 8, 28, 56, 70],
   [1, 9, 36, 84, 126],
   [1, 10, 45, 120, 210],
   [1, 11, 55, 165, 330]]

/-- `C_NK[n][k]` lookup. -/
def cnk (n k : ℕ) : ℕ := (C_NK.getD n []).getD k 0

/-- The table `FACTORIALS_7` from `cubie_cube.rs`. -/
def FACTORIALS_7 : List ℕ := [1, 1, 2, 6, 24, 120, 720, 5040]

namespace CubieCube

/-- Body of the `while k >= 0 && n > 0` loop of `CubieCube::get_slice_sorted`.
The first argument is the current position `n`; the loop body runs for
positions `11` down to `1` and the loop exits (without examining position 0)
as soon as `n` reaches `0` or `k` drops below zero.  `k` is the Rust `i32`. -/
def getSliceAux (ep : List ℕ) : ℕ → ℤ → ℕ → ℕ
  | 0, _, idx => idx
  | n + 1, k, idx =>
    if k < 0 then idx
    else if 8 ≤ ep.getD (n + 1) 0 then
      getSliceAux ep n (k - 1) (idx + cnk (n + 1) k.toNat)
    else getSliceAux ep n k idx

/-- `CubieCube::get_slice_sorted` (starts with `k = 3`, `n = 11`). -/
def getSliceSorted (c : CubieCube) : ℕ := getSliceAux c.ep 11 3 0

/-- `CubieCube::set_twist`: decode base-3 digits into `co[0..6]`
(the loop runs `i = 6` down to `0`, so `co[i] = twist / 3^(6-i) % 3`)
and fix `co[7]` by the mod-3 parity of the digit sum. -/
def setTwist (twist : ℕ) : CubieCube :=
  let digits := (List.range 7).map fun i => twist / 3 ^ (6 - i) % 3
  { SOLVED with co := digits ++ [(3 - digits.sum % 3) % 3] }

/-- `CubieCube::set_flip`: decode base-2 digits into `eo[0..10]` and fix
`eo[11]` by the mod-2 parity of the digit sum. -/
def setFlip (flip : ℕ) : CubieCube :=
  let digits := (List.range 11).map fun i => flip / 2 ^ (10 - i) % 2
  { SOLVED with eo := digits ++ [(2 - digits.sum % 2) % 2] }

/-- Body of the `for n in (0..12).rev()` loop of `CubieCube::set_slice_sorted`.
Positions are filled from 11 down to 0; prepending each assigned entry to the
accumulator yields the `ep` array in index order.  `slice_edges = [8,9,10,11]`,
`other_edges = [0..7]`, `k` starts at 4. -/
def setSliceAux : ℕ → ℕ → ℕ → List ℕ → List ℕ
  | idx, k, 0, acc =>
    (if cnk 0 k ≤ idx then [8, 9, 10, 11].getD (k - 1) 0
     else [0, 1, 2, 3, 4, 5, 6, 7].getD (0 - k) 0) :: acc
  | idx, k, n + 1, acc =>
    if cnk (n + 1) k ≤ idx then
      setSliceAux (idx - cnk (n + 1) k) (k - 1) n ([8, 9, 10, 11].getD (k - 1) 0 :: acc)
    else
      setSliceAux idx k n ([0, 1, 2, 3, 4, 5, 6, 7].getD (n + 1 - k) 0 :: acc)

/-- `CubieCube::set_slice_sorted`. -/
def setSliceSorted (idx : ℕ) : CubieCube :=
  { SOLVED with ep := setSliceAux idx 4 11 [] }

end CubieCube

/-- The Lehmer-code ranking double loop shared by `get_corner_perm`,
`get_ud_edges` (on `ep[0..8]`) and `get_slice_perm` (on `ep[8..12]`):
for `i` in `0..len-1`, count entries to the right smaller than `val[i]`
and fold `idx = (idx + count) * (len - 1 - i)`. -/
def lehmerRank (val : List ℕ) : ℕ :=
  (List.range (val.length - 1)).foldl
    (fun idx i =>
      (idx + (val.drop (i + 1)).countP fun x => decide (x < val.getD i 0)) *
        (val.length - 1 - i))
    0

/-- The Lehmer-code decoding loop shared by `set_corner_perm`, `set_ud_edges`
and `set_slice_perm`: at step `n+1` divide by `FACTORIALS_7[n+1]`, pick and
remove that entry of the `available` list; the final entry is the single
remaining available value. -/
def lehmerUnrank : ℕ → ℕ → List ℕ → List ℕ
  | 0, _, avail => avail.take 1
  | n + 1, idx, avail =>
    let fact := FACTORIALS_7.getD (n + 1) 1
    let sel := idx / fact
    avail.getD sel 0 :: lehmerUnrank n (idx % fact) (avail.eraseIdx sel)

namespace CubieCube

/-- `CubieCube::get_corner_perm`: Lehmer code of `cp`. -/
def getCornerPerm (c : CubieCube) : ℕ := lehmerRank c.cp

/-- `CubieCube::get_ud_edges`: Lehmer code of `ep[0..8]`. -/
def getUdEdges (c : CubieCube) : ℕ := lehmerRank (c.ep.take 8)

/-- `CubieCube::get_slice_perm`: Lehmer code of `ep[8..12]`. -/
def getSlicePerm (c : CubieCube) : ℕ := lehmerRank (c.ep.drop 8)

/-- `CubieCube::set_corner_perm` with `available = [0..7]`. -/
def setCornerPerm (idx : ℕ) : CubieCube :=
  { SOLVED with cp := lehmerUnrank 7 idx [0, 1, 2, 3, 4, 5, 6, 7] }

/-- `CubieCube::set_ud_edges`: decodes `ep[0..8]`; `ep[8..12]` keeps the
solved values `[8,9,10,11]`. -/
def setUdEdges (idx : ℕ) : CubieCube :=
  { SOLVED with ep := lehmerUnrank 7 idx [0, 1, 2, 3, 4, 5, 6, 7] ++ [8, 9, 10, 11] }

/-- `CubieCube::set_slice_perm`: decodes `ep[8..12]` from
`available = [8,9,10,11]` with factorials `[6,2,1]`; `ep[0..8]` keeps the
solved values. -/
def setSlicePerm (idx : ℕ) : CubieCube :=
  { SOLVED with ep := [0, 1, 2, 3, 4, 5, 6, 7] ++ lehmerUnrank 3 idx [8, 9, 10, 11] }

end CubieCube

/-- The 18 half-turn-metric moves, `enum Turn` in `turn.rs`. -/
inductive Turn where
  | U | U2 | U3 | R | R2 | R3 | F | F2 | F3
  | D | D2 | D3 | L | L2 | L3 | B | B2 | B3
deriving DecidableEq, Repr, Fintype

namespace Turn

/-- `Turn::ALL`. -/
def ALL : List Turn :=
  [U, U2, U3, R, R2, R3, F, F2, F3, D, D2, D3, L, L2, L3, B, B2, B3]

/-- `Turn::PHASE2_MOVES`. -/
def PHASE2_MOVES : List Turn := [U, U2, U3, D, D2, D3, R2, L2, F2, B2]

/-- `Turn::to_cubie`: base generator for the face, composed with itself for
half (`X2`) and prime (`X3`) turns. -/
def toCubie (t : Turn) : CubieCube :=
  let base : CubieCube :=
    match t with
    | U | U2 | U3 => CubieCube.Ugen
    | R | R2 | R3 => CubieCube.Rgen
    | F | F2 | F3 => CubieCube.Fgen
    | D | D2 | D3 => CubieCube.Dgen
    | L | L2 | L3 => CubieCube.Lgen
    | B | B2 | B3 => CubieCube.Bgen
  match t with
  | U | R | F | D | L | B => base
  | U2 | R2 | F2 | D2 | L2 | B2 => base.multiply base
  | U3 | R3 | F3 | D3 | L3 | B3 => base.multiply (base.multiply base)

/-- `Turn::axis` (0 = U/D, 1 = L/R, 2 = F/B). -/
def axis : Turn → ℕ
  | U | U2 | U3 | D | D2 | D3 => 0
  | L | L2 | L3 | R | R2 | R3 => 1
  | F | F2 | F3 | B | B2 | B3 => 2

/-- `Turn::face` (U=0, D=1, L=2, R=3, F=4, B=5). -/
def face : Turn → ℕ
  | U | U2 | U3 => 0
  | D | D2 | D3 => 1
  | L | L2 | L3 => 2
  | R | R2 | R3 => 3
  | F | F2 | F3 => 4
  | B | B2 | B3 => 5

end Turn

/-- `is_move_allowed` from `turn.rs`: allowed if no previous move; forbidden
on the same face; on the same axis forbidden exactly when
`current.face < last.face`. -/
def isMoveAllowed (currentMove : Turn) (last : Option Turn) : Bool :=
  match last with
  | none => true
  | some lastTurn =>
    let currFace := currentMove.face
    let lastFace := lastTurn.face
    if currFace = lastFace then false
    else if currentMove.axis = lastTurn.axis then
      if currFace < lastFace then false else true
    else true

/-- `applySequence`: left-to-right application of a move list by group
multiplication (as done by `scramble` and by the searches). -/
def applyMoves (c : CubieCube) (ms : List Turn) : CubieCube :=
  ms.foldl (fun s m => s.multiply m.toCubie) c

/-- Number of inversions of a list: pairs of positions `i < j` with
`l[j] < l[i]`.  The spec's "permutation parity" of an array is
`invCount l % 2`; the code itself has no parity function, so this is the
standard spec-level definition. -/
def invCount : List ℕ → ℕ
  | [] => 0
  | x :: l => (l.countP fun v => decide (v < x)) + invCount l

/-- Number of "crossing" inversions between a left block `A` and a right
block `B`: pairs `(a, b)` with `a ∈ A`, `b ∈ B`, `b < a`. -/
def crossCount (A B : List ℕ) : ℕ :=
  (A.map fun a => B.countP fun v => decide (v < a)).sum

/-- Legality of a cubie state: `cp`/`ep` are permutations of their index
ranges, orientations are in range, orientation sums are balanced, and corner
and edge permutation parities agree (the three reachability invariants of
the spec, together with the implicit well-formedness of the arrays). -/
def Legal (c : CubieCube) : Prop :=
  List.Perm c.cp (List.range 8) ∧ List.Perm c.ep (List.range 12) ∧
  c.co.length = 8 ∧ c.eo.length = 12 ∧
  (∀ x ∈ c.co, x < 3) ∧ (∀ x ∈ c.eo, x < 2) ∧
  c.co.sum % 3 = 0 ∧ c.eo.sum % 2 = 0 ∧
  invCount c.cp % 2 = invCount c.ep % 2

instance (c : CubieCube) : Decidable (Legal c) := by
  unfold Legal; infer_instance

/-- `NibbleArray` from `pruning_table.rs`: a flat byte buffer storing two
4-bit values per byte.  Bytes are `u8`, modelled as naturals `< 256`. -/
structure NibbleArray where
  data : List ℕ
  length : ℕ

/-- `NibbleArray::new`: `ceil(size/2)` bytes, each packing the default value
into both nibbles (`(default << 4) | (default & 0x0f)`, wrapping as `u8`). -/
def NibbleArray.new (size default : ℕ) : NibbleArray :=
  let numBytes := (size + 1) / 2
  let packed := ((default <<< 4) % 256) ||| (default &&& 15)
  { data := List.replicate numBytes packed, length := size }

/-- `NibbleArray::get`: lower nibble at even indices, upper at odd. -/
def NibbleArray.get (a : NibbleArray) (index : ℕ) : ℕ :=
  let byte := a.data.getD (index / 2) 0
  if index % 2 = 0 then byte &&& 15 else (byte >>> 4) &&& 15

/-- `NibbleArray::set`: clear the target nibble of the byte and OR in the
new value (the `value << 4` shift wraps as `u8`). -/
def NibbleArray.set (a : NibbleArray) (index value : ℕ) : NibbleArray :=
  let byteIdx := index / 2
  let currentByte := a.data.getD byteIdx 0
  let newByte :=
    if index % 2 = 0 then (currentByte &&& 240) ||| (value &&& 15)
    else (currentByte &&& 15) ||| ((value <<< 4) % 256)
  { a with data := a.data.set byteIdx newByte }

/-- Well-formedness of a nibble array's backing store: every byte is a
`u8` value.  `new` establishes it and `set` preserves it. -/
def BytesLT (a : NibbleArray) : Prop := ∀ b ∈ a.data, b < 256

/-- The `moves` vector of `PruningTables::generate`: the 18 move cubies in
`Turn::ALL` order. -/
def moveCubie (mIdx : ℕ) : CubieCube :=
  ((Turn.ALL.map Turn.toCubie).getD mIdx CubieCube.SOLVED)

/-- Twist move table: `twist_move[i][m] = set_twist(i).multiply(m).get_twist()`. -/
def twistMoveT (i mIdx : ℕ) : ℕ :=
  CubieCube.getTwist ((CubieCube.setTwist i).multiply (moveCubie mIdx))

/-- Flip move table. -/
def flipMoveT (i mIdx : ℕ) : ℕ :=
  CubieCube.getFlip ((CubieCube.setFlip i).multiply (moveCubie mIdx))

/-- Slice move table. -/
def sliceMoveT (i mIdx : ℕ) : ℕ :=
  CubieCube.getSliceSorted ((CubieCube.setSliceSorted i).multiply (moveCubie mIdx))

/-- Corner-permutation move table. -/
def cpMoveT (i mIdx : ℕ) : ℕ :=
  CubieCube.getCornerPerm ((CubieCube.setCornerPerm i).multiply (moveCubie mIdx))

/-- U/D-edge-permutation move table. -/
def udEdgeMoveT (i mIdx : ℕ) : ℕ :=
  CubieCube.getUdEdges ((CubieCube.setUdEdges i).multiply (moveCubie mIdx))

/-- Slice-permutation move table. -/
def epSliceMoveT (i mIdx : ℕ) : ℕ :=
  CubieCube.getSlicePerm ((CubieCube.setSlicePerm i).multiply (moveCubie mIdx))

/-- One iteration of the inner `for move_idx in ...` loop of the BFS in
`generate_pruning_table` / `generate_phase2_pruning`: compute the successor
cell through the two move tables and, if it is unvisited (15), mark it with
`dist + 1` and push it on the queue. -/
def bfsStep (mt1 mt2 : ℕ → ℕ → ℕ) (n2 c dist : ℕ) (acc : NibbleArray × List ℕ)
    (mIdx : ℕ) : NibbleArray × List ℕ :=
  let nc := mt1 (c / n2) mIdx * n2 + mt2 (c % n2) mIdx
  if acc.1.get nc = 15 then (acc.1.set nc (dist + 1), acc.2 ++ [nc]) else acc

/-- The BFS `while let Some(current) = queue.pop_front()` loop.  The Rust
loop runs until the queue is empty; here a fuel argument bounds the number
of iterations (each cell is enqueued at most once — only cells whose value
is the sentinel 15 are enqueued, and they are simultaneously set to a value
`≤ 14` — so `2 * size + 2` iterations always suffice to drain the queue). -/
def bfsLoop (mt1 mt2 : ℕ → ℕ → ℕ) (n2 : ℕ) (allowed : List ℕ) :
    ℕ → List ℕ → NibbleArray → NibbleArray
  | 0, _, table => table
  | _ + 1, [], table => table
  | fuel + 1, c :: rest, table =>
    let dist := table.get c
    if 14 ≤ dist then bfsLoop mt1 mt2 n2 allowed fuel rest table
    else
      let next := allowed.foldl (bfsStep mt1 mt2 n2 c dist) (table, rest)
      bfsLoop mt1 mt2 n2 allowed fuel next.2 next.1

/-- `PruningTables::generate_pruning_table`: allocate `size₁ × size₂`
nibbles of sentinel 15, set the start cell to 0, enqueue it, and BFS over
all 18 moves. -/
def generatePruningTable (mt1 mt2 : ℕ → ℕ → ℕ) (n1 n2 s1 s2 : ℕ) : NibbleArray :=
  let size := n1 * n2
  let start := s1 * n2 + s2
  let table := (NibbleArray.new size 15).set start 0
  bfsLoop mt1 mt2 n2 (List.range 18) (2 * size + 2) [start] table

/-- `PruningTables::generate_phase2_pruning`: same BFS restricted to the
given move indices. -/
def generatePhase2Pruning (mt1 mt2 : ℕ → ℕ → ℕ) (n1 n2 s1 s2 : ℕ)
    (allowed : List ℕ) : NibbleArray :=
  let size := n1 * n2
  let start := s1 * n2 + s2
  let table := (NibbleArray.new size 15).set start 0
  bfsLoop mt1 mt2 n2 allowed (2 * size + 2) [start] table

/-- The Phase-2 move-index subset `[U, U2, U3, D, D2, D3, R2, L2, F2, B2]`
as indices into `Turn::ALL` (`phase2_moves` in `generate`). -/
def phase2MoveIdxs : List ℕ := [0, 1, 2, 9, 10, 11, 4, 13, 7, 16]

/-- `twist_slice_pruning`: start cell is the solved state's
(twist, slice) coordinate pair. -/
def twistSlicePruning : NibbleArray :=
  generatePruningTable twistMoveT sliceMoveT 2187 495
    (CubieCube.getTwist CubieCube.SOLVED) (CubieCube.getSliceSorted CubieCube.SOLVED)

/-- `flip_slice_pruning`. -/
def flipSlicePruning : NibbleArray :=
  generatePruningTable flipMoveT sliceMoveT 2048 495
    (CubieCube.getFlip CubieCube.SOLVED) (CubieCube.getSliceSorted CubieCube.SOLVED)

/-- `corner_slice_pruning` (Phase 2, start `(0, 0)`). -/
def cornerSlicePruning : NibbleArray :=
  generatePhase2Pruning cpMoveT epSliceMoveT 40320 24 0 0 phase2MoveIdxs

/-- `ud_edge_slice_pruning` (Phase 2, start `(0, 0)`). -/
def udEdgeSlicePruning : NibbleArray :=
  generatePhase2Pruning udEdgeMoveT epSliceMoveT 40320 24 0 0 phase2MoveIdxs

/-- Wrapping `u8` subtraction: `a - b` on `u8` operands. -/
def u8sub (a b : ℕ) : ℕ := (a % 256 + 256 - b % 256) % 256

/-- The `max_p2 = *best_length - g - 1` computation of `phase1_search`,
performed in `u8` arithmetic. -/
def maxP2Bound (best g : ℕ) : ℕ := u8sub (u8sub best g) 1

/-- Solver search state: (`best_solution`, `best_length`). -/
abbrev SearchState := Option (List Turn) × ℕ

mutual

/-- `Solver::phase2_search`.  Returns `some path'` where the Rust function
returns `true` with `path` extended by the successful suffix, and `none`
where it returns `false` (the Rust `path` is push/popped back to its
entry value on failure).  The fuel argument is the recursion-depth bound;
callers pass `p2_bound + 1`, which the `g == p2_bound` guard makes
sufficient, so the fuel-exhausted branch is never taken. -/
def phase2Search : ℕ → CubieCube → ℕ → ℕ → List Turn → Option (List Turn)
  | 0, _, _, _, _ => none
  | fuel + 1, cube, g, p2Bound, path =>
    let cp := CubieCube.getCornerPerm cube
    let ud := CubieCube.getUdEdges cube
    let slice := CubieCube.getSlicePerm cube
    let h2 := max (cornerSlicePruning.get (cp * 24 + slice))
      (udEdgeSlicePruning.get (ud * 24 + slice))
    if p2Bound < g + h2 then none
    else if h2 = 0 ∧ cp = 0 ∧ ud = 0 ∧ slice = 0 then
      if g = p2Bound then some path else none
    else if g = p2Bound then none
    else phase2Loop fuel Turn.PHASE2_MOVES cube g p2Bound path
termination_by fuel _ _ _ _ => (fuel, 0)

/-- The `for &m in Turn::PHASE2_MOVES` loop of `phase2_search`. -/
def phase2Loop : ℕ → List Turn → CubieCube → ℕ → ℕ → List Turn → Option (List Turn)
  | _, [], _, _, _, _ => none
  | fuel, m :: ms, cube, g, p2Bound, path =>
    if isMoveAllowed m path.getLast? then
      match phase2Search fuel (cube.multiply m.toCubie) (g + 1) p2Bound (path ++ [m]) with
      | some fp => some fp
      | none => phase2Loop fuel ms cube g p2Bound path
    else phase2Loop fuel ms cube g p2Bound path
termination_by fuel ms _ _ _ _ => (fuel, ms.length + 1)

end

/-- The `for p2_bound in 0..=max_p2` handoff loop of `phase1_search`:
try Phase-2 bounds upward; on the first success record the solution if it
improves `best_length` and break. `remaining` counts the bounds left
(`max_p2 + 1` at entry). -/
def p2BoundLoop : ℕ → ℕ → CubieCube → ℕ → List Turn → SearchState → SearchState
  | _, 0, _, _, _, best => best
  | p2Bound, remaining + 1, cube, g, path, best =>
    match phase2Search (p2Bound + 1) cube 0 p2Bound path with
    | some p2Path =>
      let total := g + p2Bound
      if total < best.2 then (some p2Path, total) else best
    | none => p2BoundLoop (p2Bound + 1) remaining cube g path best

mutual

/-- `Solver::phase1_search`.  The mutable `best_solution`/`best_length`
pair is threaded as the `best` argument.  Fuel bounds recursion depth;
callers pass `p1_bound + 1`, sufficient because `g` grows by 1 per level
and the `g == p1_bound` guard stops expansion. -/
def phase1Search : ℕ → CubieCube → ℕ → ℕ → List Turn → SearchState → SearchState
  | 0, _, _, _, _, best => best
  | fuel + 1, cube, g, p1Bound, path, best =>
    let twist := CubieCube.getTwist cube
    let flip := CubieCube.getFlip cube
    let slice := CubieCube.getSliceSorted cube
    let h1 := max (twistSlicePruning.get (twist * 495 + slice))
      (flipSlicePruning.get (flip * 495 + slice))
    if p1Bound < g + h1 ∨ best.2 ≤ g + h1 then best
    else
      let best1 :=
        if h1 = 0 ∧ g = p1Bound then
          p2BoundLoop 0 (maxP2Bound best.2 g + 1) cube g path best
        else best
      if g = p1Bound then best1
      else phase1Loop fuel Turn.ALL cube g p1Bound path best1
termination_by fuel _ _ _ _ _ => (fuel, 0)

/-- The `for &m in Turn::ALL` loop of `phase1_search`. -/
def phase1Loop : ℕ → List Turn → CubieCube → ℕ → ℕ → List Turn → SearchState → SearchState
  | _, [], _, _, _, _, best => best
  | fuel, m :: ms, cube, g, p1Bound, path, best =>
    if isMoveAllowed m path.getLast? then
      let best1 := phase1Search fuel (cube.multiply m.toCubie) (g + 1) p1Bound
        (path ++ [m]) best
      phase1Loop fuel ms cube g p1Bound path best1
    else phase1Loop fuel ms cube g p1Bound path best
termination_by fuel ms _ _ _ _ _ => (fuel, ms.length + 1)

end

/-- The `for p1_bound in 0..=12` iterative-deepening loop of
`Solver::solve`, with its `p1_bound >= best_length` break. -/
def solveLoop : ℕ → ℕ → CubieCube → SearchState → SearchState
  | _, 0, _, best => best
  | p1Bound, remaining + 1, cube, best =>
    if best.2 ≤ p1Bound then best
    else
      let best1 := phase1Search (p1Bound + 1) cube 0 p1Bound [] best
      solveLoop (p1Bound + 1) remaining cube best1

/-- `Solver::solve` at the move-sequence level (`max_length = 22`, so
`best_length` starts at 23): the returned `Option<String>` is the
space-joined rendering of this move list. -/
def solveMoves (cube : CubieCube) : Option (List Turn) :=
  (solveLoop 0 13 cube (none, 23)).1

/-- A legal cube on which the solver misbehaves: corners solved,
orientations zero, edges cycled by the even 3-cycle `(6 7 8)`
(values `6, 7, 8` sit at positions `8, 6, 7`). -/
def tBad : CubieCube :=
  { cp := [0, 1, 2, 3, 4, 5, 6, 7]
    co := [0, 0, 0, 0, 0, 0, 0, 0]
    ep := [0, 1, 2, 3, 4, 5, 7, 8, 6, 9, 10, 11]
    eo := [0, 0, 0, 0, 0, 0, 0, 0, 0, 0, 0, 0] }

/-- A cubie state whose `ep` is a permutation of `0..11` on which the slice
move table disagrees with the direct coordinate computation (the four slice
edges sit at positions `1, 2, 4, 5`). -/
def sliceLawCex : CubieCube :=
  { cp := [0, 1, 2, 3, 4, 5, 6, 7]
    co := [0, 0, 0, 0, 0, 0, 0, 0]
    ep := [0, 8, 9, 1, 10, 11, 2, 3, 4, 5, 6, 7]
    eo := [0, 0, 0, 0, 0, 0, 0, 0, 0, 0, 0, 0] }

/-! ### Lehmer-code theory

`lehmerRank` and `lehmerUnrank` are mutually inverse between permutations of
a sorted base list and the range `0 .. (len! - 1)`. -/

theorem lehmer_fold (m : ℕ) (c : ℕ → ℕ) (a : ℕ) :
    (List.range m).foldl (fun idx i => (idx + c i) * (m - i)) a =
      a * m.factorial + ((List.range m).map fun i => c i * (m - i).factorial).sum := by
  induction m generalizing c a with
  | zero => simp [Nat.factorial]
  | succ m ih =>
    rw [List.range_succ_eq_map, List.foldl_cons, List.foldl_map]
    have hfun : (fun (idx i : ℕ) => (idx + c i.succ) * (m + 1 - i.succ)) =
        fun (idx i : ℕ) => (idx + (fun j => c (j + 1)) i) * (m - i) := by
      funext idx i
      simp [Nat.succ_sub_succ]
    rw [hfun, ih]
    rw [List.map_cons, List.sum_cons, List.map_map]
    have hmap : ((fun i => c i * (m + 1 - i).factorial) ∘ Nat.succ) =
        fun i => c (i + 1) * (m - i).factorial := by
      funext i
      simp [Function.comp, Nat.succ_sub_succ]
    rw [hmap]
    have : (a + c 0) * (m + 1 - 0) * m.factorial =
        a * (m + 1).factorial + c 0 * (m + 1 - 0).factorial := by
      simp only [Nat.sub_zero, Nat.factorial_succ]
      ring
    omega

theorem lehmerRank_cons (x : ℕ) (l : List ℕ) :
    lehmerRank (x :: l) =
      (l.countP fun v => decide (v < x)) * (l.length).factorial + lehmerRank l := by
  cases l with
  | nil => simp [lehmerRank, Nat.factorial]
  | cons y t =>
    unfold lehmerRank
    rw [show (x :: y :: t).length - 1 = t.length + 1 by simp,
      show (y :: t).length - 1 = t.length by simp]
    rw [lehmer_fold (t.length + 1)
      (fun i => ((x :: y :: t).drop (i + 1)).countP fun v => decide (v < (x :: y :: t).getD i 0)) 0]
    rw [lehmer_fold t.length
      (fun i => ((y :: t).drop (i + 1)).countP fun v => decide (v < (y :: t).getD i 0)) 0]
    rw [List.range_succ_eq_map, List.map_cons, List.map_map, List.sum_cons]
    have hmap : ((fun i => (((x :: y :: t).drop (i + 1)).countP fun v =>
          decide (v < (x :: y :: t).getD i 0)) * (t.length + 1 - i).factorial) ∘ Nat.succ) =
        fun i => (((y :: t).drop (i + 1)).countP fun v =>
          decide (v < (y :: t).getD i 0)) * (t.length - i).factorial := by
      funext i
      simp [Function.comp, Nat.succ_sub_succ, List.drop_succ_cons, List.getD_cons_succ]
    rw [hmap]
    simp [List.length_cons]

theorem lehmerRank_lt (l : List ℕ) : lehmerRank l < (l.length).factorial := by
  induction l with
  | nil => simp [lehmerRank, Nat.factorial]
  | cons x l ih =>
    have hc : (l.countP fun v => decide (v < x)) ≤ l.length := List.countP_le_length _
    have hfl := Nat.factorial_pos l.length
    calc lehmerRank (x :: l) <
        ((l.countP fun v => decide (v < x)) + 1) * (l.length).factorial := by
          rw [lehmerRank_cons, Nat.add_mul, Nat.one_mul]
          omega
      _ ≤ (l.length + 1) * (l.length).factorial :=
          Nat.mul_le_mul_right _ (by omega)
      _ = (x :: l).length.factorial := by
          simp [List.length_cons, Nat.factorial_succ]

theorem sorted_count_eraseIdx :
    ∀ (l : List ℕ), l.Sorted (· < ·) → ∀ sel, sel < l.length →
      ((l.eraseIdx sel).countP fun v => decide (v < l.getD sel 0)) = sel := by
  intro l
  induction l with
  | nil => intro _ sel h; simp at h
  | cons a t ih =>
    intro hs sel hsel
    have hat := (List.sorted_cons.mp hs)
    cases sel with
    | zero =>
      simp only [List.eraseIdx_cons_zero, List.getD_cons_zero]
      exact List.countP_eq_zero.mpr fun v hv => by
        simp only [decide_eq_true_eq]
        exact Nat.not_lt.mpr (Nat.le_of_lt (hat.1 v hv))
    | succ sel =>
      simp only [List.eraseIdx_cons_succ, List.getD_cons_succ]
      rw [List.countP_cons]
      have hmem : t.getD sel 0 ∈ t := by
        have hlt : sel < t.length := by simpa using hsel
        rw [List.getD_eq_getElem t 0 hlt]
        exact List.getElem_mem hlt
      have : decide (a < t.getD sel 0) = true := by
        simp only [decide_eq_true_eq]
        exact hat.1 _ hmem
      rw [ih hat.2 sel (by simpa using hsel), this]
      simp

theorem sorted_countP_lt (l : List ℕ) (hs : l.Sorted (· < ·)) (x : ℕ) (hx : x ∈ l) :
    (l.countP fun v => decide (v < x)) < l.length ∧
    l.getD (l.countP fun v => decide (v < x)) 0 = x ∧
    l.erase x = l.eraseIdx (l.countP fun v => decide (v < x)) := by
  induction l with
  | nil => simp at hx
  | cons a t ih =>
    have hat := List.sorted_cons.mp hs
    by_cases hxa : x = a
    · rw [hxa]
      have hc : ((a :: t).countP fun v => decide (v < a)) = 0 := by
        rw [List.countP_cons]
        have : t.countP (fun v => decide (v < a)) = 0 :=
          List.countP_eq_zero.mpr fun v hv => by
            simp only [decide_eq_true_eq]
            exact Nat.not_lt.mpr (Nat.le_of_lt (hat.1 v hv))
        simp [this]
      rw [hc]
      refine ⟨by simp, by simp, ?_⟩
      simp [List.erase_cons_head]
    · have hxt : x ∈ t := by
        rcases List.mem_cons.mp hx with h | h
        · exact absurd h hxa
        · exact h
      have hax : a < x := hat.1 x hxt
      have hc : ((a :: t).countP fun v => decide (v < x)) =
          (t.countP fun v => decide (v < x)) + 1 := by
        rw [List.countP_cons]
        simp [hax]
      obtain ⟨ih1, ih2, ih3⟩ := ih hat.2 hxt
      rw [hc]
      refine ⟨by simpa using ih1, by simpa using ih2, ?_⟩
      rw [List.eraseIdx_cons_succ, List.erase_cons_tail (by simp [Ne.symm hxa, hxa])]
      rw [ih3]

theorem perm_getD_cons_eraseIdx :
    ∀ (l : List ℕ) (sel : ℕ), sel < l.length →
      List.Perm l (l.getD sel 0 :: l.eraseIdx sel) := by
  intro l
  induction l with
  | nil => intro sel h; simp at h
  | cons a t ih =>
    intro sel hsel
    cases sel with
    | zero => simp
    | succ sel =>
      simp only [List.eraseIdx_cons_succ, List.getD_cons_succ]
      exact (List.Perm.cons a (ih sel (by simpa using hsel))).trans
        (List.Perm.swap (t.getD sel 0) a (t.eraseIdx sel))

theorem FACTORIALS_getD : ∀ k, k ≤ 7 → FACTORIALS_7.getD k 1 = k.factorial := by decide

theorem lehmer_rank_unrank :
    ∀ (n : ℕ), n ≤ 7 → ∀ (idx : ℕ) (avail : List ℕ),
      avail.Sorted (· < ·) → avail.length = n + 1 → idx < (n + 1).factorial →
      lehmerRank (lehmerUnrank n idx avail) = idx ∧
      (lehmerUnrank n idx avail).length = n + 1 ∧
      List.Perm (lehmerUnrank n idx avail) avail := by
  intro n
  induction n with
  | zero =>
    intro _ idx avail _ hlen hidx
    obtain ⟨a, ha⟩ := List.length_eq_one.mp hlen
    subst ha
    have : idx = 0 := by simpa [Nat.factorial] using hidx
    subst this
    simp [lehmerUnrank, lehmerRank]
  | succ n ih =>
    intro hn idx avail hs hlen hidx
    have hfact : FACTORIALS_7.getD (n + 1) 1 = (n + 1).factorial :=
      FACTORIALS_getD (n + 1) hn
    have hsel : idx / (n + 1).factorial < n + 2 := by
      rw [Nat.div_lt_iff_lt_mul (Nat.factorial_pos _)]
      calc idx < (n + 2).factorial := hidx
        _ = (n + 2) * (n + 1).factorial := Nat.factorial_succ _
    have hsellt : idx / (n + 1).factorial < avail.length := by omega
    have hrec := ih (by omega) (idx % (n + 1).factorial) (avail.eraseIdx (idx / (n + 1).factorial))
      (List.Pairwise.sublist (List.eraseIdx_sublist _ _) hs)
      (by rw [List.length_eraseIdx_of_lt hsellt]; omega)
      (Nat.mod_lt _ (Nat.factorial_pos _))
    have hunfold : lehmerUnrank (n + 1) idx avail =
        avail.getD (idx / (n + 1).factorial) 0 ::
          lehmerUnrank n (idx % (n + 1).factorial)
            (avail.eraseIdx (idx / (n + 1).factorial)) := by
      rw [lehmerUnrank, hfact]
    obtain ⟨hr, hl, hp⟩ := hrec
    have hperm2 : List.Perm (lehmerUnrank (n + 1) idx avail) avail := by
      rw [hunfold]
      exact (hp.cons _).trans (perm_getD_cons_eraseIdx avail _ hsellt).symm
    refine ⟨?_, by rw [hunfold]; simp [hl], hperm2⟩
    rw [hunfold, lehmerRank_cons, hl]
    have hcnt : ((lehmerUnrank n (idx % (n + 1).factorial)
          (avail.eraseIdx (idx / (n + 1).factorial))).countP
            fun v => decide (v < avail.getD (idx / (n + 1).factorial) 0)) =
        idx / (n + 1).factorial := by
      rw [hp.countP_eq]
      exact sorted_count_eraseIdx avail hs _ hsellt
    rw [hcnt, hr]
    have := Nat.div_add_mod idx ((n + 1).factorial)
    rw [Nat.mul_comm] at this
    omega

theorem lehmer_unrank_rank :
    ∀ (n : ℕ), n ≤ 7 → ∀ (p avail : List ℕ),
      avail.Sorted (· < ·) → avail.length = n + 1 → List.Perm p avail →
      lehmerUnrank n (lehmerRank p) avail = p := by
  intro n
  induction n with
  | zero =>
    intro _ p avail _ hlen hperm
    obtain ⟨a, ha⟩ := List.length_eq_one.mp hlen
    subst ha
    have hp : p = [a] := List.perm_singleton.mp hperm
    subst hp
    simp [lehmerUnrank, lehmerRank]
  | succ n ih =>
    intro hn p avail hs hlen hperm
    have hplen : p.length = n + 2 := by rw [hperm.length_eq, hlen]
    cases p with
    | nil => simp at hplen
    | cons x l =>
      have hllen : l.length = n + 1 := by simpa using hplen
      have hxa : x ∈ avail := hperm.mem_iff.mp (List.mem_cons_self x l)
      obtain ⟨hclt, hgd, herase⟩ := sorted_countP_lt avail hs x hxa
      have hle : List.Perm l (avail.erase x) := List.cons_perm_iff_perm_erase.mp hperm |>.2
      have hrankl : lehmerRank l < (n + 1).factorial := by
        have := lehmerRank_lt l
        rwa [hllen] at this
      have hcl : (l.countP fun v => decide (v < x)) =
          avail.countP fun v => decide (v < x) := by
        rw [hle.countP_eq, herase]
        have := sorted_count_eraseIdx avail hs (avail.countP fun v => decide (v < x)) hclt
        rw [hgd] at this
        exact this
      have hrank : lehmerRank (x :: l) =
          (avail.countP fun v => decide (v < x)) * (n + 1).factorial + lehmerRank l := by
        rw [lehmerRank_cons, hllen, hcl]
      have hfact : FACTORIALS_7.getD (n + 1) 1 = (n + 1).factorial :=
        FACTORIALS_getD (n + 1) hn
      have hdiv : lehmerRank (x :: l) / (n + 1).factorial =
          avail.countP fun v => decide (v < x) := by
        rw [hrank, Nat.add_comm, Nat.add_mul_div_right _ _ (Nat.factorial_pos _),
          Nat.div_eq_of_lt hrankl, Nat.zero_add]
      have hmod : lehmerRank (x :: l) % (n + 1).factorial = lehmerRank l := by
        rw [hrank, Nat.add_comm, Nat.add_mul_mod_self_right, Nat.mod_eq_of_lt hrankl]
      have hunfold : lehmerUnrank (n + 1) (lehmerRank (x :: l)) avail =
          avail.getD (lehmerRank (x :: l) / (n + 1).factorial) 0 ::
            lehmerUnrank n (lehmerRank (x :: l) % (n + 1).factorial)
              (avail.eraseIdx (lehmerRank (x :: l) / (n + 1).factorial)) := by
        rw [lehmerUnrank, hfact]
      rw [hunfold, hdiv, hmod, hgd, ← herase]
      have htail : lehmerUnrank n (lehmerRank l) (avail.erase x) = l := by
        refine ih (by omega) l (avail.erase x) ?_ ?_ hle
        · exact List.Pairwise.sublist (avail.erase_sublist x) hs
        · rw [List.length_erase_of_mem hxa, hlen]
          omega
      rw [htail]

/-! ### List helpers -/

theorem getD_map_range (f : ℕ → ℕ) (m j d : ℕ) (h : j < m) :
    ((List.range m).map f).getD j d = f j := by
  rw [List.getD_eq_getElem _ d (by simpa using h)]
  simp

theorem getD_append_left (l₁ l₂ : List ℕ) (j d : ℕ) (h : j < l₁.length) :
    (l₁ ++ l₂).getD j d = l₁.getD j d := by
  rw [List.getD_eq_getElem?_getD, List.getElem?_append_left h, ← List.getD_eq_getElem?_getD]

theorem getD_append_right (l₁ l₂ : List ℕ) (j d : ℕ) (h : l₁.length ≤ j) :
    (l₁ ++ l₂).getD j d = l₂.getD (j - l₁.length) d := by
  rw [List.getD_eq_getElem?_getD, List.getElem?_append_right h, ← List.getD_eq_getElem?_getD]

theorem foldl_congr_mem {α β : Type} :
    ∀ (l : List α) (f g : β → α → β) (a : β),
      (∀ b : β, ∀ x ∈ l, f b x = g b x) → l.foldl f a = l.foldl g a := by
  intro l
  induction l with
  | nil => intro f g a _; rfl
  | cons x t ih =>
    intro f g a h
    simp only [List.foldl_cons]
    rw [h a x (List.mem_cons_self x t)]
    exact ih f g _ fun b y hy => h b y (List.mem_cons_of_mem x hy)

theorem sum_eq_range_getD (l : List ℕ) :
    l.sum = ((List.range l.length).map fun j => l.getD j 0).sum := by
  congr 1
  apply List.ext_getElem
  · simp
  · intro j h1 h2
    simp only [List.getElem_map, List.getElem_range]
    rw [List.getD_eq_getElem l 0 (by simpa using h1)]

theorem list_ext_getD (l₁ l₂ : List ℕ) (hlen : l₁.length = l₂.length)
    (h : ∀ j, j < l₁.length → l₁.getD j 0 = l₂.getD j 0) : l₁ = l₂ := by
  apply List.ext_getElem hlen
  intro j h1 h2
  rw [← List.getD_eq_getElem l₁ 0 h1, ← List.getD_eq_getElem l₂ 0 h2]
  exact h j h1

/-! ### Base-b digit folds (twist and flip coordinates) -/

theorem digits_fold (b : ℕ) (hb : 0 < b) :
    ∀ (m x : ℕ),
      (List.range m).foldl (fun t j => b * t + x / b ^ (m - 1 - j) % b) 0 = x % b ^ m := by
  intro m
  induction m with
  | zero => intro x; simp [Nat.mod_one]
  | succ m ih =>
    intro x
    rw [List.range_succ, List.foldl_append, List.foldl_cons, List.foldl_nil]
    have hinner : (List.range m).foldl (fun t j => b * t + x / b ^ (m + 1 - 1 - j) % b) 0 =
        (List.range m).foldl (fun t j => b * t + (x / b) / b ^ (m - 1 - j) % b) 0 := by
      apply foldl_congr_mem
      intro t j hj
      have hjm : j < m := List.mem_range.mp hj
      have : m + 1 - 1 - j = (m - 1 - j) + 1 := by omega
      rw [this, Nat.pow_succ, Nat.mul_comm (b ^ (m - 1 - j)) b, ← Nat.div_div_eq_div_mul]
    rw [hinner, ih (x / b)]
    have hexp : m + 1 - 1 - m = 0 := by omega
    rw [hexp, Nat.pow_zero, Nat.div_one]
    have h1 : x / b % b ^ m = x % (b * b ^ m) / b := (Nat.mod_mul_right_div_self x b (b ^ m)).symm
    have h2 : x % b ^ (m + 1) % b = x % b := by
      apply Nat.mod_mod_of_dvd
      exact ⟨b ^ m, by rw [Nat.pow_succ]; ring⟩
    rw [h1]
    have hpow : b * b ^ m = b ^ (m + 1) := by rw [Nat.pow_succ]; ring
    rw [hpow]
    have := Nat.div_add_mod (x % b ^ (m + 1)) b
    omega

theorem fold_digit (b : ℕ) :
    ∀ (m : ℕ) (f : ℕ → ℕ), (∀ k, k < m → f k < b) →
      ∀ j, j < m →
        ((List.range m).foldl (fun t k => b * t + f k) 0) / b ^ (m - 1 - j) % b = f j := by
  intro m
  induction m with
  | zero => intro f _ j hj; omega
  | succ m ih =>
    intro f hf j hj
    rw [List.range_succ, List.foldl_append, List.foldl_cons, List.foldl_nil]
    set V := (List.range m).foldl (fun t k => b * t + f k) 0 with hV
    have hbpos : 0 < b := Nat.lt_of_le_of_lt (Nat.zero_le _) (hf m (by omega))
    by_cases hjm : j = m
    · have hexp0 : m + 1 - 1 - j = 0 := by omega
      rw [hexp0, Nat.pow_zero, Nat.div_one, Nat.mul_add_mod, hjm]
      exact Nat.mod_eq_of_lt (hf m (by omega))
    · have hjlt : j < m := by omega
      have hexp : m + 1 - 1 - j = (m - 1 - j) + 1 := by omega
      rw [hexp, Nat.pow_succ, Nat.mul_comm (b ^ (m - 1 - j)) b, ← Nat.div_div_eq_div_mul]
      have hdiv : (b * V + f m) / b = V := by
        rw [Nat.mul_add_div hbpos, Nat.div_eq_of_lt (hf m (by omega))]
        omega
      rw [hdiv]
      exact ih f (fun k hk => hf k (by omega)) j hjlt

/-! ### Coordinate roundtrips (get after set) -/

theorem sorted_base8 : List.Sorted (· < ·) [0, 1, 2, 3, 4, 5, 6, 7] := by decide

theorem sorted_base4 : List.Sorted (· < ·) [8, 9, 10, 11] := by decide

theorem fact8 : (7 + 1).factorial = 40320 := by norm_num [Nat.factorial]

theorem fact4 : (3 + 1).factorial = 24 := by norm_num [Nat.factorial]

theorem cornerPerm_roundtrip (idx : ℕ) (h : idx < 40320) :
    CubieCube.getCornerPerm (CubieCube.setCornerPerm idx) = idx :=
  (lehmer_rank_unrank 7 (by omega) idx [0, 1, 2, 3, 4, 5, 6, 7] sorted_base8 rfl
    (by rw [fact8]; exact h)).1

theorem udEdges_roundtrip (idx : ℕ) (h : idx < 40320) :
    CubieCube.getUdEdges (CubieCube.setUdEdges idx) = idx := by
  obtain ⟨h1, h2, _⟩ := lehmer_rank_unrank 7 (by omega) idx [0, 1, 2, 3, 4, 5, 6, 7]
    sorted_base8 rfl (by rw [fact8]; exact h)
  have hep : (CubieCube.setUdEdges idx).ep =
      lehmerUnrank 7 idx [0, 1, 2, 3, 4, 5, 6, 7] ++ [8, 9, 10, 11] := rfl
  show lehmerRank ((CubieCube.setUdEdges idx).ep.take 8) = idx
  rw [hep, List.take_left'
    (show (lehmerUnrank 7 idx [0, 1, 2, 3, 4, 5, 6, 7]).length = 8 by rw [h2])]
  exact h1

theorem slicePerm_roundtrip (idx : ℕ) (h : idx < 24) :
    CubieCube.getSlicePerm (CubieCube.setSlicePerm idx) = idx := by
  obtain ⟨h1, _, _⟩ := lehmer_rank_unrank 3 (by omega) idx [8, 9, 10, 11]
    sorted_base4 rfl (by rw [fact4]; exact h)
  have hep : (CubieCube.setSlicePerm idx).ep =
      [0, 1, 2, 3, 4, 5, 6, 7] ++ lehmerUnrank 3 idx [8, 9, 10, 11] := rfl
  show lehmerRank ((CubieCube.setSlicePerm idx).ep.drop 8) = idx
  rw [hep, List.drop_left' (show ([0, 1, 2, 3, 4, 5, 6, 7] : List ℕ).length = 8 by rfl)]
  exact h1

theorem twist_roundtrip (i : ℕ) (h : i < 2187) :
    CubieCube.getTwist (CubieCube.setTwist i) = i := by
  show (List.range 7).foldl
    (fun t j => 3 * t + (CubieCube.setTwist i).co.getD j 0) 0 = i
  have hco : ∀ j, j < 7 → (CubieCube.setTwist i).co.getD j 0 = i / 3 ^ (7 - 1 - j) % 3 := by
    intro j hj
    show (((List.range 7).map fun k => i / 3 ^ (6 - k) % 3) ++ _).getD j 0 = _
    rw [getD_append_left _ _ _ _ (by simpa using hj), getD_map_range _ _ _ _ hj]
  rw [foldl_congr_mem _ _ (fun t j => 3 * t + i / 3 ^ (7 - 1 - j) % 3) 0
    (fun t j hj => by rw [hco j (List.mem_range.mp hj)])]
  rw [digits_fold 3 (by omega) 7 i]
  have h37 : (3 : ℕ) ^ 7 = 2187 := by norm_num
  omega

theorem flip_roundtrip (i : ℕ) (h : i < 2048) :
    CubieCube.getFlip (CubieCube.setFlip i) = i := by
  show (List.range 11).foldl
    (fun t j => 2 * t + (CubieCube.setFlip i).eo.getD j 0) 0 = i
  have heo : ∀ j, j < 11 → (CubieCube.setFlip i).eo.getD j 0 = i / 2 ^ (11 - 1 - j) % 2 := by
    intro j hj
    show (((List.range 11).map fun k => i / 2 ^ (10 - k) % 2) ++ _).getD j 0 = _
    rw [getD_append_left _ _ _ _ (by simpa using hj), getD_map_range _ _ _ _ hj]
  rw [foldl_congr_mem _ _ (fun t j => 2 * t + i / 2 ^ (11 - 1 - j) % 2) 0
    (fun t j hj => by rw [heo j (List.mem_range.mp hj)])]
  rw [digits_fold 2 (by omega) 11 i]
  have h211 : (2 : ℕ) ^ 11 = 2048 := by norm_num
  omega

/-! ### Coordinate canonicalisation (set after get) and move-table laws -/

theorem getD_mem (l : List ℕ) (j : ℕ) (h : j < l.length) : l.getD j 0 ∈ l := by
  rw [List.getD_eq_getElem l 0 h]
  exact List.getElem_mem h

theorem getD_take_of_lt (l : List ℕ) (n j d : ℕ) (h : j < n) :
    (l.take n).getD j d = l.getD j d := by
  rw [List.getD_eq_getElem?_getD, List.getD_eq_getElem?_getD, List.getElem?_take]
  simp [h]

theorem getD_drop (l : List ℕ) (n j d : ℕ) :
    (l.drop n).getD j d = l.getD (n + j) d := by
  rw [List.getD_eq_getElem?_getD, List.getD_eq_getElem?_getD, List.getElem?_drop]

theorem co_set_get (c : CubieCube) (hlen : c.co.length = 8)
    (hval : ∀ x ∈ c.co, x < 3) (hsum : c.co.sum % 3 = 0) :
    (CubieCube.setTwist (CubieCube.getTwist c)).co = c.co := by
  have hf : ∀ k, k < 8 → c.co.getD k 0 < 3 := fun k hk =>
    hval _ (getD_mem c.co k (by omega))
  have hdig : ∀ j, j < 7 →
      CubieCube.getTwist c / 3 ^ (6 - j) % 3 = c.co.getD j 0 := by
    intro j hj
    exact fold_digit 3 7 (fun k => c.co.getD k 0) (fun k hk => hf k (by omega)) j hj
  have hco : (CubieCube.setTwist (CubieCube.getTwist c)).co =
      ((List.range 7).map fun j => CubieCube.getTwist c / 3 ^ (6 - j) % 3) ++
        [(3 - ((List.range 7).map fun j =>
          CubieCube.getTwist c / 3 ^ (6 - j) % 3).sum % 3) % 3] := rfl
  have hmap : ((List.range 7).map fun j => CubieCube.getTwist c / 3 ^ (6 - j) % 3) =
      (List.range 7).map fun j => c.co.getD j 0 :=
    List.map_congr_left fun j hj => hdig j (List.mem_range.mp hj)
  rw [hco, hmap]
  have hsum8 : c.co.sum =
      ((List.range 7).map fun j => c.co.getD j 0).sum + c.co.getD 7 0 := by
    rw [sum_eq_range_getD c.co, hlen, List.range_succ, List.map_append, List.sum_append]
    simp
  apply list_ext_getD
  · simp [hlen]
  · intro j hj
    have hjlen : j < 8 := by simpa using hj
    by_cases hj7 : j < 7
    · rw [getD_append_left _ _ _ _ (by simpa using hj7), getD_map_range _ _ _ _ hj7]
    · have hj_eq : j = 7 := by omega
      subst hj_eq
      rw [getD_append_right _ _ _ _ (by simp)]
      simp only [List.length_map, List.length_range, Nat.sub_self, List.getD_cons_zero]
      have h7 : c.co.getD 7 0 < 3 := hf 7 (by omega)
      omega

theorem eo_set_get (c : CubieCube) (hlen : c.eo.length = 12)
    (hval : ∀ x ∈ c.eo, x < 2) (hsum : c.eo.sum % 2 = 0) :
    (CubieCube.setFlip (CubieCube.getFlip c)).eo = c.eo := by
  have hf : ∀ k, k < 12 → c.eo.getD k 0 < 2 := fun k hk =>
    hval _ (getD_mem c.eo k (by omega))
  have hdig : ∀ j, j < 11 →
      CubieCube.getFlip c / 2 ^ (10 - j) % 2 = c.eo.getD j 0 := by
    intro j hj
    exact fold_digit 2 11 (fun k => c.eo.getD k 0) (fun k hk => hf k (by omega)) j hj
  have heo : (CubieCube.setFlip (CubieCube.getFlip c)).eo =
      ((List.range 11).map fun j => CubieCube.getFlip c / 2 ^ (10 - j) % 2) ++
        [(2 - ((List.range 11).map fun j =>
          CubieCube.getFlip c / 2 ^ (10 - j) % 2).sum % 2) % 2] := rfl
  have hmap : ((List.range 11).map fun j => CubieCube.getFlip c / 2 ^ (10 - j) % 2) =
      (List.range 11).map fun j => c.eo.getD j 0 :=
    List.map_congr_left fun j hj => hdig j (List.mem_range.mp hj)
  rw [heo, hmap]
  have hsum12 : c.eo.sum =
      ((List.range 11).map fun j => c.eo.getD j 0).sum + c.eo.getD 11 0 := by
    rw [sum_eq_range_getD c.eo, hlen, List.range_succ, List.map_append, List.sum_append]
    simp
  apply list_ext_getD
  · simp [hlen]
  · intro j hj
    have hjlen : j < 12 := by simpa using hj
    by_cases hj11 : j < 11
    · rw [getD_append_left _ _ _ _ (by simpa using hj11), getD_map_range _ _ _ _ hj11]
    · have hj_eq : j = 11 := by omega
      subst hj_eq
      rw [getD_append_right _ _ _ _ (by simp)]
      simp only [List.length_map, List.length_range, Nat.sub_self, List.getD_cons_zero]
      have h11 : c.eo.getD 11 0 < 2 := hf 11 (by omega)
      omega

theorem range8_eq : List.range 8 = [0, 1, 2, 3, 4, 5, 6, 7] := rfl

theorem range12_eq : List.range 12 = [0, 1, 2, 3, 4, 5, 6, 7, 8, 9, 10, 11] := rfl

theorem cp_set_get (c : CubieCube) (hperm : List.Perm c.cp (List.range 8)) :
    (CubieCube.setCornerPerm (CubieCube.getCornerPerm c)).cp = c.cp := by
  show lehmerUnrank 7 (lehmerRank c.cp) [0, 1, 2, 3, 4, 5, 6, 7] = c.cp
  exact lehmer_unrank_rank 7 (by omega) c.cp _ sorted_base8 rfl (range8_eq ▸ hperm)

/-- In a G1 state (edge permutation with the four slice edges in the slice
positions), the first eight entries of `ep` are a permutation of `0..7` and
the last four a permutation of `[8,9,10,11]`. -/
theorem ep_g1_split (c : CubieCube) (hperm : List.Perm c.ep (List.range 12))
    (hG1 : ∀ y ∈ c.ep.drop 8, 8 ≤ y) :
    List.Perm (c.ep.take 8) [0, 1, 2, 3, 4, 5, 6, 7] ∧
    List.Perm (c.ep.drop 8) [8, 9, 10, 11] := by
  have hlen : c.ep.length = 12 := by rw [hperm.length_eq, List.length_range]
  have hnd : c.ep.Nodup := hperm.nodup_iff.mpr (List.nodup_range 12)
  have hndT : (c.ep.take 8).Nodup := (List.take_sublist 8 c.ep).nodup hnd
  have hndD : (c.ep.drop 8).Nodup := (List.drop_sublist 8 c.ep).nodup hnd
  have hmem12 : ∀ y ∈ c.ep, y < 12 := fun y hy => by
    have := hperm.mem_iff.mp hy
    simpa using this
  have hsubD : c.ep.drop 8 ⊆ [8, 9, 10, 11] := by
    intro y hy
    have h1 : 8 ≤ y := hG1 y hy
    have h2 : y < 12 := hmem12 y (List.mem_of_mem_drop hy)
    simp only [List.mem_cons, List.not_mem_nil, or_false]
    omega
  have hlenD : (c.ep.drop 8).length = 4 := by rw [List.length_drop, hlen]
  have hpermD : List.Perm (c.ep.drop 8) [8, 9, 10, 11] :=
    (List.subperm_of_subset hndD hsubD).perm_of_length_le (by rw [hlenD]; rfl)
  refine ⟨?_, hpermD⟩
  have hdisj : List.Disjoint (c.ep.take 8) (c.ep.drop 8) := by
    have hsplit : c.ep.take 8 ++ c.ep.drop 8 = c.ep := List.take_append_drop 8 c.ep
    have := hnd
    rw [← hsplit] at this
    exact (List.nodup_append.mp this).2.2
  have hsubT : c.ep.take 8 ⊆ [0, 1, 2, 3, 4, 5, 6, 7] := by
    intro x hx
    have hx12 : x < 12 := hmem12 x (List.mem_of_mem_take hx)
    have hx8 : x < 8 := by
      by_contra hge
      have hxD : x ∈ c.ep.drop 8 := hpermD.mem_iff.mpr (by
        simp only [List.mem_cons, List.not_mem_nil, or_false]
        omega)
      exact hdisj hx hxD
    simp only [List.mem_cons, List.not_mem_nil, or_false]
    omega
  have hlenT : (c.ep.take 8).length = 8 := by
    rw [List.length_take, hlen]
    rfl
  exact (List.subperm_of_subset hndT hsubT).perm_of_length_le (by rw [hlenT]; rfl)

theorem ud_set_get (c : CubieCube) (hperm : List.Perm c.ep (List.range 12))
    (hG1 : ∀ y ∈ c.ep.drop 8, 8 ≤ y) :
    (CubieCube.setUdEdges (CubieCube.getUdEdges c)).ep.take 8 = c.ep.take 8 := by
  obtain ⟨hT, _⟩ := ep_g1_split c hperm hG1
  have hback : lehmerUnrank 7 (lehmerRank (c.ep.take 8)) [0, 1, 2, 3, 4, 5, 6, 7] =
      c.ep.take 8 :=
    lehmer_unrank_rank 7 (by omega) _ _ sorted_base8 rfl hT
  have hep : (CubieCube.setUdEdges (CubieCube.getUdEdges c)).ep =
      lehmerUnrank 7 (lehmerRank (c.ep.take 8)) [0, 1, 2, 3, 4, 5, 6, 7] ++
        [8, 9, 10, 11] := rfl
  rw [hep, hback]
  apply List.take_left'
  rw [hT.length_eq]
  rfl

theorem sp_set_get (c : CubieCube) (hperm : List.Perm c.ep (List.range 12))
    (hG1 : ∀ y ∈ c.ep.drop 8, 8 ≤ y) :
    (CubieCube.setSlicePerm (CubieCube.getSlicePerm c)).ep.drop 8 = c.ep.drop 8 := by
  obtain ⟨_, hD⟩ := ep_g1_split c hperm hG1
  have hback : lehmerUnrank 3 (lehmerRank (c.ep.drop 8)) [8, 9, 10, 11] =
      c.ep.drop 8 :=
    lehmer_unrank_rank 3 (by omega) _ _ sorted_base4 rfl hD
  have hep : (CubieCube.setSlicePerm (CubieCube.getSlicePerm c)).ep =
      [0, 1, 2, 3, 4, 5, 6, 7] ++
        lehmerUnrank 3 (lehmerRank (c.ep.drop 8)) [8, 9, 10, 11] := rfl
  rw [hep, hback]
  exact List.drop_left' (by rfl)

theorem getTwist_congr (a b : CubieCube) (h : a.co = b.co) :
    CubieCube.getTwist a = CubieCube.getTwist b := by
  unfold CubieCube.getTwist
  rw [h]

theorem getFlip_congr (a b : CubieCube) (h : a.eo = b.eo) :
    CubieCube.getFlip a = CubieCube.getFlip b := by
  unfold CubieCube.getFlip
  rw [h]

theorem multiply_co_congr (a b M : CubieCube) (h : a.co = b.co) :
    (a.multiply M).co = (b.multiply M).co := by
  unfold CubieCube.multiply
  simp only [h]

theorem multiply_cp_congr (a b M : CubieCube) (h : a.cp = b.cp) :
    (a.multiply M).cp = (b.multiply M).cp := by
  unfold CubieCube.multiply
  simp only [h]

theorem multiply_co_congr' (a b M : CubieCube) (h : a.eo = b.eo) :
    (a.multiply M).eo = (b.multiply M).eo := by
  unfold CubieCube.multiply
  simp only [h]

theorem multiply_ep_take8 (a M : CubieCube) :
    (a.multiply M).ep.take 8 =
      (List.range 8).map fun i => a.ep.getD (M.ep.getD i 0) 0 := by
  show ((List.range 12).map fun i => a.ep.getD (M.ep.getD i 0) 0).take 8 = _
  rw [← List.map_take]
  rfl

theorem multiply_ep_drop8 (a M : CubieCube) :
    (a.multiply M).ep.drop 8 =
      [8, 9, 10, 11].map fun i => a.ep.getD (M.ep.getD i 0) 0 := by
  show ((List.range 12).map fun i => a.ep.getD (M.ep.getD i 0) 0).drop 8 = _
  rw [← List.map_drop]
  rfl

theorem getUd_multiply_congr (a b M : CubieCube)
    (h : a.ep.take 8 = b.ep.take 8) (hM : ∀ i, i < 8 → M.ep.getD i 0 < 8) :
    CubieCube.getUdEdges (a.multiply M) = CubieCube.getUdEdges (b.multiply M) := by
  unfold CubieCube.getUdEdges
  rw [multiply_ep_take8, multiply_ep_take8]
  congr 1
  apply List.map_congr_left
  intro i hi
  have hi8 : i < 8 := List.mem_range.mp hi
  have hMi := hM i hi8
  rw [← getD_take_of_lt a.ep 8 _ 0 hMi, ← getD_take_of_lt b.ep 8 _ 0 hMi, h]

theorem getSp_multiply_congr (a b M : CubieCube)
    (h : a.ep.drop 8 = b.ep.drop 8)
    (hM : ∀ i, 8 ≤ i → i < 12 → 8 ≤ M.ep.getD i 0 ∧ M.ep.getD i 0 < 12) :
    CubieCube.getSlicePerm (a.multiply M) = CubieCube.getSlicePerm (b.multiply M) := by
  unfold CubieCube.getSlicePerm
  rw [multiply_ep_drop8, multiply_ep_drop8]
  congr 1
  apply List.map_congr_left
  intro i hi
  have hi812 : 8 ≤ i ∧ i < 12 := by
    simp only [List.mem_cons, List.not_mem_nil, or_false] at hi
    omega
  obtain ⟨hMlo, hMhi⟩ := hM i hi812.1 hi812.2
  have ha : a.ep.getD (M.ep.getD i 0) 0 = (a.ep.drop 8).getD (M.ep.getD i 0 - 8) 0 := by
    rw [getD_drop]
    congr 1
    omega
  have hb : b.ep.getD (M.ep.getD i 0) 0 = (b.ep.drop 8).getD (M.ep.getD i 0 - 8) 0 := by
    rw [getD_drop]
    congr 1
    omega
  rw [ha, hb, h]

theorem phase2_cubie_ep_bounds : ∀ mIdx ∈ phase2MoveIdxs,
    (∀ i, i < 8 → (moveCubie mIdx).ep.getD i 0 < 8) ∧
    (∀ i, 8 ≤ i → i < 12 →
      8 ≤ (moveCubie mIdx).ep.getD i 0 ∧ (moveCubie mIdx).ep.getD i 0 < 12) := by
  decide

theorem twist_move_law (c : CubieCube) (h8 : c.co.length = 8)
    (hval : ∀ x ∈ c.co, x < 3) (hsum : c.co.sum % 3 = 0) (mIdx : ℕ) :
    twistMoveT (CubieCube.getTwist c) mIdx =
      CubieCube.getTwist (c.multiply (moveCubie mIdx)) := by
  unfold twistMoveT
  exact getTwist_congr _ _ (multiply_co_congr _ _ _ (co_set_get c h8 hval hsum))

theorem flip_move_law (c : CubieCube) (h12 : c.eo.length = 12)
    (hval : ∀ x ∈ c.eo, x < 2) (hsum : c.eo.sum % 2 = 0) (mIdx : ℕ) :
    flipMoveT (CubieCube.getFlip c) mIdx =
      CubieCube.getFlip (c.multiply (moveCubie mIdx)) := by
  unfold flipMoveT
  exact getFlip_congr _ _ (multiply_co_congr' _ _ _ (eo_set_get c h12 hval hsum))

theorem cp_move_law (c : CubieCube) (hperm : List.Perm c.cp (List.range 8)) (mIdx : ℕ) :
    cpMoveT (CubieCube.getCornerPerm c) mIdx =
      CubieCube.getCornerPerm (c.multiply (moveCubie mIdx)) := by
  unfold cpMoveT CubieCube.getCornerPerm
  have h2 : (CubieCube.setCornerPerm (lehmerRank c.cp)).cp = c.cp := cp_set_get c hperm
  rw [multiply_cp_congr _ _ (moveCubie mIdx) h2]

theorem ud_move_law (c : CubieCube) (hperm : List.Perm c.ep (List.range 12))
    (hG1 : ∀ y ∈ c.ep.drop 8, 8 ≤ y) (mIdx : ℕ) (hm : mIdx ∈ phase2MoveIdxs) :
    udEdgeMoveT (CubieCube.getUdEdges c) mIdx =
      CubieCube.getUdEdges (c.multiply (moveCubie mIdx)) := by
  unfold udEdgeMoveT
  exact getUd_multiply_congr _ _ _ (ud_set_get c hperm hG1)
    (phase2_cubie_ep_bounds mIdx hm).1

theorem sp_move_law (c : CubieCube) (hperm : List.Perm c.ep (List.range 12))
    (hG1 : ∀ y ∈ c.ep.drop 8, 8 ≤ y) (mIdx : ℕ) (hm : mIdx ∈ phase2MoveIdxs) :
    epSliceMoveT (CubieCube.getSlicePerm c) mIdx =
      CubieCube.getSlicePerm (c.multiply (moveCubie mIdx)) := by
  unfold epSliceMoveT
  exact getSp_multiply_congr _ _ _ (sp_set_get c hperm hG1)
    (phase2_cubie_ep_bounds mIdx hm).2

/-! ### Inversion-count parity -/

theorem invCount_append (A B : List ℕ) :
    invCount (A ++ B) = invCount A + invCount B + crossCount A B := by
  induction A with
  | nil => simp [invCount, crossCount]
  | cons a A ih =>
    simp only [List.cons_append, invCount, crossCount, List.map_cons, List.sum_cons,
      List.append_eq, List.countP_append]
    rw [ih]
    unfold crossCount
    omega

theorem invCount_swap_adjacent (A : List ℕ) (x y : ℕ) (B : List ℕ) (hyx : y < x) :
    invCount (A ++ x :: y :: B) = invCount (A ++ y :: x :: B) + 1 := by
  rw [invCount_append, invCount_append]
  have hxy : invCount (x :: y :: B) = invCount (y :: x :: B) + 1 := by
    simp only [invCount, List.countP_cons, decide_eq_true_eq]
    rw [if_pos hyx, if_neg (show ¬ x < y by omega)]
    omega
  have hcross : crossCount A (x :: y :: B) = crossCount A (y :: x :: B) := by
    unfold crossCount
    congr 1
    apply List.map_congr_left
    intro a _
    simp only [List.countP_cons]
    omega
  omega

theorem invCount_eq_zero_of_sorted (l : List ℕ) (hs : l.Sorted (· ≤ ·)) :
    invCount l = 0 := by
  induction l with
  | nil => rfl
  | cons a t ih =>
    have hat := List.sorted_cons.mp hs
    simp only [invCount]
    rw [ih hat.2, List.countP_eq_zero.mpr fun v hv => by
      simp only [decide_eq_true_eq]
      exact Nat.not_lt.mpr (hat.1 v hv)]

theorem descent_or_sorted : ∀ l : List ℕ, l.Sorted (· ≤ ·) ∨
    ∃ A x y B, l = A ++ x :: y :: B ∧ y < x := by
  intro l
  induction l with
  | nil => left; simp
  | cons a t ih =>
    cases t with
    | nil => left; simp
    | cons b t2 =>
      by_cases hab : b < a
      · right
        exact ⟨[], a, b, t2, rfl, hab⟩
      · rcases ih with hs | ⟨A, x, y, B, heq, hyx⟩
        · left
          have hbt := List.sorted_cons.mp hs
          refine List.sorted_cons.mpr ⟨?_, hs⟩
          intro z hz
          rcases List.mem_cons.mp hz with hzb | hzt
          · omega
          · have := hbt.1 z hzt
            omega
        · right
          exact ⟨a :: A, x, y, B, by rw [List.cons_append, ← heq], hyx⟩

theorem invCount_map_perm (n : ℕ) (g : ℕ → ℕ)
    (hg : ∀ i, i < n → ∀ j, j < n → g i = g j → i = j) :
    ∀ (k : ℕ) (b : List ℕ), invCount b = k → List.Perm b (List.range n) →
      invCount (b.map g) % 2 =
        (invCount ((List.range n).map g) + invCount b) % 2 := by
  intro k
  induction k using Nat.strong_induction_on with
  | _ k ih =>
    intro b hbk hperm
    rcases descent_or_sorted b with hs | ⟨A, x, y, B, hbeq, hyx⟩
    · have hb : b = List.range n :=
        List.eq_of_perm_of_sorted hperm hs (List.sorted_le_range n)
      subst hb
      rw [invCount_eq_zero_of_sorted _ (List.sorted_le_range n)]
      simp
    · have hswap : List.Perm (A ++ y :: x :: B) b := by
        rw [hbeq]
        exact List.Perm.append_left A (List.Perm.swap x y B)
      have hinv : invCount b = invCount (A ++ y :: x :: B) + 1 := by
        rw [hbeq]
        exact invCount_swap_adjacent A x y B hyx
      have hxb : x ∈ b := by rw [hbeq]; simp
      have hyb : y ∈ b := by rw [hbeq]; simp
      have hxn : x < n := by simpa using hperm.mem_iff.mp hxb
      have hyn : y < n := by simpa using hperm.mem_iff.mp hyb
      have hgxy : g x ≠ g y := fun hgeq => by
        have := hg x hxn y hyn hgeq
        omega
      have hrec := ih (invCount (A ++ y :: x :: B)) (by omega) (A ++ y :: x :: B) rfl
        (hswap.trans hperm)
      have hmapb : b.map g = A.map g ++ g x :: g y :: B.map g := by
        rw [hbeq]
        simp
      have hmapb2 : (A ++ y :: x :: B).map g = A.map g ++ g y :: g x :: B.map g := by
        simp
      rcases Nat.lt_or_ge (g y) (g x) with hgy | hgy
      · have h1 : invCount (b.map g) =
            invCount ((A ++ y :: x :: B).map g) + 1 := by
          rw [hmapb, hmapb2]
          exact invCount_swap_adjacent _ _ _ _ hgy
        omega
      · have hgxlt : g x < g y := by omega
        have h1 : invCount ((A ++ y :: x :: B).map g) =
            invCount (b.map g) + 1 := by
          rw [hmapb, hmapb2]
          exact invCount_swap_adjacent _ _ _ _ hgxlt
        omega

/-! ### Legality is preserved by multiplication with move cubies -/

theorem map_range_getD_eq (l : List ℕ) (f : ℕ → ℕ) (n : ℕ) (hlen : l.length = n) :
    ((List.range n).map fun i => f (l.getD i 0)) = l.map f := by
  apply List.ext_getElem (by simp [hlen])
  intro j h1 h2
  simp only [List.getElem_map, List.getElem_range]
  rw [List.getD_eq_getElem l 0 (by simp at h1; omega)]

theorem map_range_getD_self (l : List ℕ) (n : ℕ) (hlen : l.length = n) :
    ((List.range n).map fun i => l.getD i 0) = l := by
  apply List.ext_getElem (by simp [hlen])
  intro j h1 h2
  simp only [List.getElem_map, List.getElem_range]
  rw [List.getD_eq_getElem l 0 (by simp at h1; omega)]

theorem sum_map_add {α : Type} (l : List α) (f g : α → ℕ) :
    (l.map fun i => f i + g i).sum = (l.map f).sum + (l.map g).sum := by
  induction l with
  | nil => rfl
  | cons a t ih => simp [ih]; omega

theorem sum_map_mod {α : Type} (l : List α) (f : α → ℕ) (k : ℕ) :
    (l.map fun i => f i % k).sum % k = (l.map f).sum % k := by
  induction l with
  | nil => rfl
  | cons a t ih =>
    simp only [List.map_cons, List.sum_cons]
    rw [Nat.add_mod, Nat.mod_mod_of_dvd (f a) (dvd_refl k), ih, ← Nat.add_mod]

theorem legal_toCubie : ∀ m : Turn, Legal (Turn.toCubie m) := by
  intro m
  cases m <;> decide

theorem getD_inj_of_nodup (l : List ℕ) (n : ℕ) (hlen : l.length = n) (hnd : l.Nodup) :
    ∀ i, i < n → ∀ j, j < n → l.getD i 0 = l.getD j 0 → i = j := by
  intro i hi j hj heq
  rw [List.getD_eq_getElem l 0 (show i < l.length by omega)] at heq
  rw [List.getD_eq_getElem l 0 (show j < l.length by omega)] at heq
  exact hnd.getElem_inj_iff.mp heq

theorem legal_multiply (s M : CubieCube) (hs : Legal s) (hM : Legal M) :
    Legal (s.multiply M) := by
  obtain ⟨scp, sep, sco, seo, scov, seov, scos, seos, spar⟩ := hs
  obtain ⟨Mcp, Mep, Mco, Meo, Mcov, Meov, Mcos, Meos, Mpar⟩ := hM
  have hscplen : s.cp.length = 8 := by rw [scp.length_eq]; rfl
  have hseplen : s.ep.length = 12 := by rw [sep.length_eq]; rfl
  have hMcplen : M.cp.length = 8 := by rw [Mcp.length_eq]; rfl
  have hMeplen : M.ep.length = 12 := by rw [Mep.length_eq]; rfl
  have hcp_eq : (s.multiply M).cp = M.cp.map fun j => s.cp.getD j 0 :=
    map_range_getD_eq M.cp (fun j => s.cp.getD j 0) 8 hMcplen
  have hep_eq : (s.multiply M).ep = M.ep.map fun j => s.ep.getD j 0 :=
    map_range_getD_eq M.ep (fun j => s.ep.getD j 0) 12 hMeplen
  have hscp_eq : ((List.range 8).map fun j => s.cp.getD j 0) = s.cp :=
    map_range_getD_self s.cp 8 hscplen
  have hsep_eq : ((List.range 12).map fun j => s.ep.getD j 0) = s.ep :=
    map_range_getD_self s.ep 12 hseplen
  have hcpP : List.Perm (s.multiply M).cp (List.range 8) := by
    rw [hcp_eq]
    exact ((Mcp.map _).trans (by rw [hscp_eq])).trans scp
  have hepP : List.Perm (s.multiply M).ep (List.range 12) := by
    rw [hep_eq]
    exact ((Mep.map _).trans (by rw [hsep_eq])).trans sep
  have hco_eq : (s.multiply M).co =
      (List.range 8).map fun i => (s.co.getD (M.cp.getD i 0) 0 + M.co.getD i 0) % 3 := rfl
  have heo_eq : (s.multiply M).eo =
      (List.range 12).map fun i => (s.eo.getD (M.ep.getD i 0) 0 + M.eo.getD i 0) % 2 := rfl
  have hco_sum : (s.multiply M).co.sum % 3 = 0 := by
    rw [hco_eq]
    have h1 := sum_map_mod (List.range 8)
      (fun i => s.co.getD (M.cp.getD i 0) 0 + M.co.getD i 0) 3
    have h2 := sum_map_add (List.range 8)
      (fun i => s.co.getD (M.cp.getD i 0) 0) (fun i => M.co.getD i 0)
    have h3 : ((List.range 8).map fun i => s.co.getD (M.cp.getD i 0) 0).sum = s.co.sum := by
      rw [map_range_getD_eq M.cp (fun j => s.co.getD j 0) 8 hMcplen]
      rw [(Mcp.map fun j => s.co.getD j 0).sum_eq]
      rw [map_range_getD_self s.co 8 sco]
    have h4 : ((List.range 8).map fun i => M.co.getD i 0).sum = M.co.sum := by
      rw [map_range_getD_self M.co 8 Mco]
    omega
  have heo_sum : (s.multiply M).eo.sum % 2 = 0 := by
    rw [heo_eq]
    have h1 := sum_map_mod (List.range 12)
      (fun i => s.eo.getD (M.ep.getD i 0) 0 + M.eo.getD i 0) 2
    have h2 := sum_map_add (List.range 12)
      (fun i => s.eo.getD (M.ep.getD i 0) 0) (fun i => M.eo.getD i 0)
    have h3 : ((List.range 12).map fun i => s.eo.getD (M.ep.getD i 0) 0).sum = s.eo.sum := by
      rw [map_range_getD_eq M.ep (fun j => s.eo.getD j 0) 12 hMeplen]
      rw [(Mep.map fun j => s.eo.getD j 0).sum_eq]
      rw [map_range_getD_self s.eo 12 seo]
    have h4 : ((List.range 12).map fun i => M.eo.getD i 0).sum = M.eo.sum := by
      rw [map_range_getD_self M.eo 12 Meo]
    omega
  have hpar1 : invCount (s.multiply M).cp % 2 = (invCount s.cp + invCount M.cp) % 2 := by
    rw [hcp_eq]
    have hg := getD_inj_of_nodup s.cp 8 hscplen (scp.nodup_iff.mpr (List.nodup_range 8))
    have := invCount_map_perm 8 (fun j => s.cp.getD j 0) hg (invCount M.cp) M.cp rfl Mcp
    rw [hscp_eq] at this
    omega
  have hpar2 : invCount (s.multiply M).ep % 2 = (invCount s.ep + invCount M.ep) % 2 := by
    rw [hep_eq]
    have hg := getD_inj_of_nodup s.ep 12 hseplen (sep.nodup_iff.mpr (List.nodup_range 12))
    have := invCount_map_perm 12 (fun j => s.ep.getD j 0) hg (invCount M.ep) M.ep rfl Mep
    rw [hsep_eq] at this
    omega
  refine ⟨hcpP, hepP, by rw [hco_eq]; simp, by rw [heo_eq]; simp, ?_, ?_, hco_sum,
    heo_sum, by omega⟩
  · intro x hx
    rw [hco_eq] at hx
    obtain ⟨i, _, hxi⟩ := List.mem_map.mp hx
    omega
  · intro x hx
    rw [heo_eq] at hx
    obtain ⟨i, _, hxi⟩ := List.mem_map.mp hx
    omega

theorem legal_SOLVED : Legal CubieCube.SOLVED := by decide

theorem legal_applyMoves (ms : List Turn) : ∀ c, Legal c → Legal (applyMoves c ms) := by
  induction ms with
  | nil => intro c h; exact h
  | cons m ms ih =>
    intro c h
    exact ih _ (legal_multiply c (Turn.toCubie m) h (legal_toCubie m))

/-! ### NibbleArray laws -/

theorem and15_eq_mod (v : ℕ) : v &&& 15 = v % 16 := by
  rw [show (15 : ℕ) = 2 ^ 4 - 1 by norm_num, Nat.and_pow_two_sub_one_eq_mod]

theorem shiftl4_eq (v : ℕ) : v <<< 4 = v * 16 := by
  rw [Nat.shiftLeft_eq]

theorem shl4_mod256 (v : ℕ) : (v <<< 4) % 256 = v % 16 * 16 := by
  rw [shiftl4_eq]
  omega

theorem nib_lower_set : ∀ b < 256, ∀ w < 16, ((b &&& 240) ||| w) &&& 15 = w := by decide

theorem nib_lower_frame : ∀ b < 256, ∀ w < 16,
    (((b &&& 240) ||| w) >>> 4) &&& 15 = (b >>> 4) &&& 15 := by decide

theorem nib_upper_set : ∀ b < 256, ∀ w < 16,
    (((b &&& 15) ||| (w * 16)) >>> 4) &&& 15 = w := by decide

theorem nib_upper_frame : ∀ b < 256, ∀ w < 16,
    ((b &&& 15) ||| (w * 16)) &&& 15 = b &&& 15 := by decide

theorem nib_pack_lower : ∀ d < 16, (((d <<< 4) % 256) ||| (d &&& 15)) &&& 15 = d := by decide

theorem nib_pack_upper : ∀ d < 16,
    ((((d <<< 4) % 256) ||| (d &&& 15)) >>> 4) &&& 15 = d := by decide

theorem nib_pack_lt : ∀ d < 16, ((d <<< 4) % 256) ||| (d &&& 15) < 256 := by decide

theorem or_lt_256 (x y : ℕ) (hx : x < 256) (hy : y < 256) : x ||| y < 256 := by
  have h256 : (256 : ℕ) = 2 ^ 8 := by norm_num
  rw [h256] at hx hy ⊢
  exact Nat.or_lt_two_pow hx hy

theorem byte_new_lt (b v : ℕ) (hb : b < 256) :
    ((b &&& 240) ||| (v &&& 15)) < 256 ∧ ((b &&& 15) ||| ((v <<< 4) % 256)) < 256 := by
  constructor
  · exact or_lt_256 _ _ (by have := Nat.and_le_right (n := b) (m := 240); omega)
      (by have := Nat.and_le_right (n := v) (m := 15); omega)
  · exact or_lt_256 _ _ (by have := Nat.and_le_right (n := b) (m := 15); omega)
      (by omega)

theorem getD_set_self (l : List ℕ) (k x d : ℕ) (h : k < l.length) :
    (l.set k x).getD k d = x := by
  rw [List.getD_eq_getElem?_getD, List.getElem?_set_self h]
  rfl

theorem getD_set_ne (l : List ℕ) (k j x d : ℕ) (h : k ≠ j) :
    (l.set k x).getD j d = l.getD j d := by
  rw [List.getD_eq_getElem?_getD, List.getElem?_set_ne h, ← List.getD_eq_getElem?_getD]

theorem bytesLT_new (size d : ℕ) (hd : d < 16) : BytesLT (NibbleArray.new size d) := by
  intro b hb
  have := List.eq_of_mem_replicate hb
  subst this
  exact nib_pack_lt d hd

theorem bytesLT_set (a : NibbleArray) (i v : ℕ) (h : BytesLT a) :
    BytesLT (a.set i v) := by
  intro b hb
  unfold NibbleArray.set at hb
  simp only at hb
  rcases List.mem_or_eq_of_mem_set hb with hmem | heq
  · exact h b hmem
  · subst heq
    by_cases hpar : i % 2 = 0
    · rw [if_pos hpar]
      by_cases hidx : i / 2 < a.data.length
      · exact (byte_new_lt _ v (h _ (getD_mem a.data _ hidx))).1
      · have : a.data.getD (i / 2) 0 = 0 := by
          rw [List.getD_eq_getElem?_getD, List.getElem?_eq_none (by omega)]
          rfl
        rw [this]
        exact (byte_new_lt 0 v (by omega)).1
    · rw [if_neg hpar]
      by_cases hidx : i / 2 < a.data.length
      · exact (byte_new_lt _ v (h _ (getD_mem a.data _ hidx))).2
      · have : a.data.getD (i / 2) 0 = 0 := by
          rw [List.getD_eq_getElem?_getD, List.getElem?_eq_none (by omega)]
          rfl
        rw [this]
        exact (byte_new_lt 0 v (by omega)).2

theorem nibble_get_set_self (a : NibbleArray) (i v : ℕ) (hB : BytesLT a)
    (hlen : i / 2 < a.data.length) (hv : v ≤ 15) : (a.set i v).get i = v := by
  have hbyte : a.data.getD (i / 2) 0 < 256 := hB _ (getD_mem a.data _ hlen)
  unfold NibbleArray.get NibbleArray.set
  simp only
  rw [getD_set_self _ _ _ _ (by simpa using hlen)]
  have hw : v &&& 15 = v := by rw [and15_eq_mod]; omega
  have hw16 : v &&& 15 < 16 := by rw [and15_eq_mod]; omega
  have hmod16 : v % 16 < 16 := by omega
  have hveq : v % 16 = v := by omega
  by_cases hpar : i % 2 = 0
  · rw [if_pos hpar, if_pos hpar]
    rw [nib_lower_set _ hbyte (v &&& 15) hw16, hw]
  · rw [if_neg hpar, if_neg hpar, shl4_mod256]
    rw [nib_upper_set _ hbyte (v % 16) hmod16, hveq]

theorem nibble_get_set_ne (a : NibbleArray) (i j v : ℕ) (hB : BytesLT a)
    (hne : i ≠ j) : (a.set i v).get j = a.get j := by
  unfold NibbleArray.get NibbleArray.set
  simp only
  by_cases hbyteq : i / 2 = j / 2
  · by_cases hidx : i / 2 < a.data.length
    · have hbyte : a.data.getD (i / 2) 0 < 256 := hB _ (getD_mem a.data _ hidx)
      rw [← hbyteq, getD_set_self _ _ _ _ (by simpa using hidx)]
      have hpar : i % 2 ≠ j % 2 := by omega
      have hw16 : v &&& 15 < 16 := by rw [and15_eq_mod]; omega
      have hmod16 : v % 16 < 16 := by omega
      by_cases hpi : i % 2 = 0
      · have hpj : ¬ j % 2 = 0 := by omega
        simp only [if_pos hpi, if_neg hpj]
        exact nib_lower_frame _ hbyte (v &&& 15) hw16
      · have hpj : j % 2 = 0 := by omega
        simp only [if_neg hpi, if_pos hpj, shl4_mod256]
        exact nib_upper_frame _ hbyte (v % 16) hmod16
    · rw [List.set_eq_of_length_le (by omega)]
  · rw [getD_set_ne _ _ _ _ _ hbyteq]

theorem nibble_get_new (size d i : ℕ) (hi : i < size) (hd : d < 16) :
    (NibbleArray.new size d).get i = d := by
  unfold NibbleArray.get NibbleArray.new
  simp only
  have hlt : i / 2 < (size + 1) / 2 := by omega
  have hbyte : (List.replicate ((size + 1) / 2)
      (((d <<< 4) % 256) ||| (d &&& 15))).getD (i / 2) 0 =
      ((d <<< 4) % 256) ||| (d &&& 15) := by
    rw [List.getD_eq_getElem?_getD, List.getElem?_replicate_of_lt (by simpa using hlt)]
    rfl
  rw [hbyte]
  by_cases hpar : i % 2 = 0
  · rw [if_pos hpar]
    exact nib_pack_lower d hd
  · rw [if_neg hpar]
    exact nib_pack_upper d hd

theorem nibble_get_le (a : NibbleArray) (i : ℕ) : a.get i ≤ 15 := by
  unfold NibbleArray.get
  by_cases hpar : i % 2 = 0
  · rw [if_pos hpar]
    exact Nat.and_le_right
  · rw [if_neg hpar]
    exact Nat.and_le_right

/-! ### The BFS never overwrites the start cell -/

theorem bfsStep_preserves (mt1 mt2 : ℕ → ℕ → ℕ) (n2 c dist s0 : ℕ)
    (acc : NibbleArray × List ℕ) (mIdx : ℕ) (hB : BytesLT acc.1)
    (h0 : acc.1.get s0 = 0) :
    BytesLT (bfsStep mt1 mt2 n2 c dist acc mIdx).1 ∧
      (bfsStep mt1 mt2 n2 c dist acc mIdx).1.get s0 = 0 := by
  unfold bfsStep
  simp only
  by_cases hfree : acc.1.get (mt1 (c / n2) mIdx * n2 + mt2 (c % n2) mIdx) = 15
  · rw [if_pos hfree]
    simp only
    have hne : mt1 (c / n2) mIdx * n2 + mt2 (c % n2) mIdx ≠ s0 := fun heq => by
      rw [heq, h0] at hfree
      omega
    exact ⟨bytesLT_set _ _ _ hB, by rw [nibble_get_set_ne _ _ _ _ hB hne]; exact h0⟩
  · rw [if_neg hfree]
    exact ⟨hB, h0⟩

theorem foldl_bfsStep_preserves (mt1 mt2 : ℕ → ℕ → ℕ) (n2 c dist s0 : ℕ) :
    ∀ (l : List ℕ) (acc : NibbleArray × List ℕ), BytesLT acc.1 → acc.1.get s0 = 0 →
      BytesLT (l.foldl (bfsStep mt1 mt2 n2 c dist) acc).1 ∧
        (l.foldl (bfsStep mt1 mt2 n2 c dist) acc).1.get s0 = 0 := by
  intro l
  induction l with
  | nil => intro acc hB h0; exact ⟨hB, h0⟩
  | cons mIdx rest ih =>
    intro acc hB h0
    rw [List.foldl_cons]
    obtain ⟨hB2, h02⟩ := bfsStep_preserves mt1 mt2 n2 c dist s0 acc mIdx hB h0
    exact ih _ hB2 h02

theorem bfsLoop_get_start (mt1 mt2 : ℕ → ℕ → ℕ) (n2 : ℕ) (allowed : List ℕ) (s0 : ℕ) :
    ∀ (fuel : ℕ) (q : List ℕ) (t : NibbleArray), BytesLT t → t.get s0 = 0 →
      (bfsLoop mt1 mt2 n2 allowed fuel q t).get s0 = 0 := by
  intro fuel
  induction fuel with
  | zero => intro q t _ h0; exact h0
  | succ fuel ih =>
    intro q t hB h0
    cases q with
    | nil => exact h0
    | cons c rest =>
      rw [bfsLoop]
      by_cases hdist : 14 ≤ t.get c
      · rw [if_pos hdist]
        exact ih rest t hB h0
      · rw [if_neg hdist]
        obtain ⟨hB2, h02⟩ := foldl_bfsStep_preserves mt1 mt2 n2 c (t.get c) s0
          allowed (t, rest) hB h0
        exact ih _ _ hB2 h02

theorem generatePruningTable_get_start (mt1 mt2 : ℕ → ℕ → ℕ) (n1 n2 s1 s2 : ℕ)
    (hstart : (s1 * n2 + s2) / 2 < (n1 * n2 + 1) / 2) :
    (generatePruningTable mt1 mt2 n1 n2 s1 s2).get (s1 * n2 + s2) = 0 := by
  unfold generatePruningTable
  apply bfsLoop_get_start
  · exact bytesLT_set _ _ _ (bytesLT_new _ _ (by omega))
  · apply nibble_get_set_self
    · exact bytesLT_new _ _ (by omega)
    · show _ < (List.replicate _ _).length
      simpa using hstart
    · omega

theorem generatePhase2Pruning_get_start (mt1 mt2 : ℕ → ℕ → ℕ) (n1 n2 s1 s2 : ℕ)
    (allowed : List ℕ) (hstart : (s1 * n2 + s2) / 2 < (n1 * n2 + 1) / 2) :
    (generatePhase2Pruning mt1 mt2 n1 n2 s1 s2 allowed).get (s1 * n2 + s2) = 0 := by
  unfold generatePhase2Pruning
  apply bfsLoop_get_start
  · exact bytesLT_set _ _ _ (bytesLT_new _ _ (by omega))
  · apply nibble_get_set_self
    · exact bytesLT_new _ _ (by omega)
    · show _ < (List.replicate _ _).length
      simpa using hstart
    · omega

theorem solved_twist : CubieCube.getTwist CubieCube.SOLVED = 0 := by decide

theorem solved_flip : CubieCube.getFlip CubieCube.SOLVED = 0 := by decide

theorem solved_slice : CubieCube.getSliceSorted CubieCube.SOLVED = 220 := by decide

theorem twistSlicePruning_start : twistSlicePruning.get 220 = 0 := by
  have h := generatePruningTable_get_start twistMoveT sliceMoveT 2187 495
    (CubieCube.getTwist CubieCube.SOLVED) (CubieCube.getSliceSorted CubieCube.SOLVED)
    (by rw [solved_twist, solved_slice]; norm_num)
  rw [solved_twist, solved_slice] at h
  norm_num at h
  exact h

theorem flipSlicePruning_start : flipSlicePruning.get 220 = 0 := by
  have h := generatePruningTable_get_start flipMoveT sliceMoveT 2048 495
    (CubieCube.getFlip CubieCube.SOLVED) (CubieCube.getSliceSorted CubieCube.SOLVED)
    (by rw [solved_flip, solved_slice]; norm_num)
  rw [solved_flip, solved_slice] at h
  norm_num at h
  exact h

theorem cornerSlicePruning_start : cornerSlicePruning.get 0 = 0 := by
  have h := generatePhase2Pruning_get_start cpMoveT epSliceMoveT 40320 24 0 0
    phase2MoveIdxs (by norm_num)
  norm_num at h
  exact h

theorem udEdgeSlicePruning_start : udEdgeSlicePruning.get 0 = 0 := by
  have h := generatePhase2Pruning_get_start udEdgeMoveT epSliceMoveT 40320 24 0 0
    phase2MoveIdxs (by norm_num)
  norm_num at h
  exact h

/-! ### The solver on the collision state tBad -/

theorem tBad_coords : CubieCube.getTwist tBad = 0 ∧ CubieCube.getFlip tBad = 0 ∧
    CubieCube.getSliceSorted tBad = 220 ∧ CubieCube.getCornerPerm tBad = 0 ∧
    CubieCube.getUdEdges tBad = 0 ∧ CubieCube.getSlicePerm tBad = 0 := by decide

theorem phase2Search_tBad : phase2Search 1 tBad 0 0 [] = some [] := by
  obtain ⟨_, _, _, h4, h5, h6⟩ := tBad_coords
  rw [show (1 : ℕ) = 0 + 1 from rfl, phase2Search]
  simp only [h4, h5, h6]
  norm_num [cornerSlicePruning_start, udEdgeSlicePruning_start]

theorem p2BoundLoop_tBad :
    p2BoundLoop 0 23 tBad 0 [] (none, 23) = (some [], 0) := by
  rw [show (23 : ℕ) = 22 + 1 from rfl, p2BoundLoop]
  rw [show (0 : ℕ) + 1 = 1 from rfl, phase2Search_tBad]
  norm_num

theorem phase1Search_tBad : phase1Search 1 tBad 0 0 [] (none, 23) = (some [], 0) := by
  obtain ⟨h1, h2, h3, _, _, _⟩ := tBad_coords
  rw [show (1 : ℕ) = 0 + 1 from rfl, phase1Search]
  simp only [h1, h2, h3]
  norm_num [twistSlicePruning_start, flipSlicePruning_start, maxP2Bound, u8sub,
    p2BoundLoop_tBad]

theorem solveMoves_tBad : solveMoves tBad = some [] := by
  have hstep : solveLoop 0 13 tBad (none, 23) = solveLoop 1 12 tBad (some [], 0) := by
    conv_lhs => rw [show (13 : ℕ) = 12 + 1 from rfl, solveLoop]
    conv_lhs =>
      rw [if_neg (show ¬ (((none : Option (List Turn)), (23 : ℕ)).2 ≤ 0) by norm_num)]
      rw [show (0 : ℕ) + 1 = 1 from rfl, phase1Search_tBad]
  have hstop : solveLoop 1 12 tBad (some [], 0) = (some [], 0) := by
    conv_lhs => rw [show (12 : ℕ) = 11 + 1 from rfl, solveLoop]
    conv_lhs => rw [if_pos (show ((some ([] : List Turn)), (0 : ℕ)).2 ≤ 1 by norm_num)]
  conv_lhs => rw [solveMoves]
  conv_lhs => rw [hstep, hstop]

/-! ### Solver bookkeeping: Phase-2 handoff bounds and best-solution updates -/

/-- A successful `phase2_search` call entered at depth `g` with bound
`p2Bound` has `g ≤ p2Bound` and returns the entry path extended by exactly
`p2Bound - g` moves: the recorded solution's length is the entry path length
plus the Phase-2 bound. -/
theorem phase2Search_some_length :
    ∀ fuel cube g p2Bound path fp,
      phase2Search fuel cube g p2Bound path = some fp →
      g ≤ p2Bound ∧ fp.length = path.length + (p2Bound - g) := by
  intro fuel
  induction fuel with
  | zero =>
    intro cube g p2 path fp h
    simp only [phase2Search] at h
    exact Option.noConfusion h
  | succ fuel ih =>
    have hloop : ∀ ms cube g p2 path fp,
        phase2Loop fuel ms cube g p2 path = some fp →
        g + 1 ≤ p2 ∧ fp.length = path.length + (p2 - g) := by
      intro ms
      induction ms with
      | nil =>
        intro cube g p2 path fp h
        simp only [phase2Loop] at h
        exact Option.noConfusion h
      | cons m ms ihm =>
        intro cube g p2 path fp h
        simp only [phase2Loop] at h
        split at h
        · split at h
          · rename_i fp2 heq
            obtain ⟨h1, h2⟩ := ih _ _ _ _ _ heq
            rw [List.length_append, List.length_singleton] at h2
            injection h with hfp
            subst hfp
            exact ⟨h1, by omega⟩
          · exact ihm _ _ _ _ _ h
        · exact ihm _ _ _ _ _ h
    intro cube g p2 path fp h
    simp only [phase2Search] at h
    split at h
    · exact Option.noConfusion h
    · split at h
      · split at h
        · rename_i hgoal hgp
          injection h with hfp
          subst hfp
          exact ⟨le_of_eq hgp, by omega⟩
        · exact Option.noConfusion h
      · split at h
        · exact Option.noConfusion h
        · obtain ⟨h1, h2⟩ := hloop _ _ _ _ _ _ h
          exact ⟨by omega, h2⟩

/-- The `for p2_bound in 0..=max_p2` loop either leaves `best` untouched or
records, for some bound `p2` in the attempted window `[b, b + r)`, a
solution found by `phase2_search` at that bound, with new best length
`g + p2` strictly below the previous best length. -/
theorem p2BoundLoop_spec :
    ∀ r b cube g path best,
      p2BoundLoop b r cube g path best = best ∨
      ∃ p2 fp, b ≤ p2 ∧ p2 < b + r ∧
        phase2Search (p2 + 1) cube 0 p2 path = some fp ∧
        p2BoundLoop b r cube g path best = (some fp, g + p2) ∧
        g + p2 < best.2 := by
  intro r
  induction r with
  | zero =>
    intro b cube g path best
    left
    rfl
  | succ r ih =>
    intro b cube g path best
    cases hcall : phase2Search (b + 1) cube 0 b path with
    | some fp =>
      by_cases htot : g + b < best.2
      · right
        refine ⟨b, fp, le_refl b, by omega, hcall, ?_, htot⟩
        simp only [p2BoundLoop, hcall]
        rw [if_pos htot]
      · left
        simp only [p2BoundLoop, hcall]
        rw [if_neg htot]
    | none =>
      have hrec : p2BoundLoop b (r + 1) cube g path best =
          p2BoundLoop (b + 1) r cube g path best := by
        simp only [p2BoundLoop, hcall]
      rcases ih (b + 1) cube g path best with h0 | ⟨p2, fp, hb, hlt, hc, heq, hbest⟩
      · left
        rw [hrec, h0]
      · right
        exact ⟨p2, fp, by omega, by omega, hc, by rw [hrec, heq], hbest⟩

/-- When `g < best ≤ 255` the `u8` computation `best - g - 1` does not wrap:
`maxP2Bound` equals the mathematical `best - g - 1`. -/
theorem maxP2Bound_eq (best g : ℕ) (hb : best ≤ 255) (hg : g < best) :
    maxP2Bound best g = best - g - 1 := by
  simp only [maxP2Bound, u8sub]
  omega

/-- "Never worsens, and strictly improves whenever it changes" is transitive
on solver search states. -/
theorem searchState_dec_trans (a b c : SearchState)
    (h1 : b.2 ≤ a.2 ∧ (b ≠ a → b.2 < a.2 ∧ ∃ p, b.1 = some p))
    (h2 : c.2 ≤ b.2 ∧ (c ≠ b → c.2 < b.2 ∧ ∃ p, c.1 = some p)) :
    c.2 ≤ a.2 ∧ (c ≠ a → c.2 < a.2 ∧ ∃ p, c.1 = some p) := by
  obtain ⟨hb1, hb2⟩ := h1
  obtain ⟨hc1, hc2⟩ := h2
  refine ⟨le_trans hc1 hb1, fun hne => ?_⟩
  by_cases hcb : c = b
  · subst hcb
    exact hb2 hne
  · obtain ⟨hlt, hp⟩ := hc2 hcb
    exact ⟨lt_of_lt_of_le hlt hb1, hp⟩

/-- The Phase-2 handoff loop never worsens `best_length`, and whenever it
changes the state it strictly decreases it and stores a solution. -/
theorem p2BoundLoop_dec (b r : ℕ) (cube : CubieCube) (g : ℕ) (path : List Turn)
    (best : SearchState) :
    (p2BoundLoop b r cube g path best).2 ≤ best.2 ∧
    (p2BoundLoop b r cube g path best ≠ best →
      (p2BoundLoop b r cube g path best).2 < best.2 ∧
      ∃ p, (p2BoundLoop b r cube g path best).1 = some p) := by
  rcases p2BoundLoop_spec r b cube g path best with h | ⟨p2, fp, _, _, _, heq, hbest⟩
  · rw [h]
    exact ⟨le_refl _, fun hne => absurd rfl hne⟩
  · rw [heq]
    exact ⟨le_of_lt hbest, fun _ => ⟨hbest, fp, rfl⟩⟩

/-- `phase1_search` never worsens the `(best_solution, best_length)` pair,
and whenever it changes it it strictly decreases `best_length` and stores a
solution. -/
theorem phase1Search_dec :
    ∀ fuel cube g p1Bound path best,
      (phase1Search fuel cube g p1Bound path best).2 ≤ best.2 ∧
      (phase1Search fuel cube g p1Bound path best ≠ best →
        (phase1Search fuel cube g p1Bound path best).2 < best.2 ∧
        ∃ p, (phase1Search fuel cube g p1Bound path best).1 = some p) := by
  intro fuel
  induction fuel with
  | zero =>
    intro cube g p1 path best
    simp only [phase1Search]
    exact ⟨le_refl _, fun hne => absurd rfl hne⟩
  | succ fuel ih =>
    have hloop : ∀ ms cube g p1 path best,
        (phase1Loop fuel ms cube g p1 path best).2 ≤ best.2 ∧
        (phase1Loop fuel ms cube g p1 path best ≠ best →
          (phase1Loop fuel ms cube g p1 path best).2 < best.2 ∧
          ∃ p, (phase1Loop fuel ms cube g p1 path best).1 = some p) := by
      intro ms
      induction ms with
      | nil =>
        intro cube g p1 path best
        simp only [phase1Loop]
        exact ⟨le_refl _, fun hne => absurd rfl hne⟩
      | cons m ms ihm =>
        intro cube g p1 path best
        simp only [phase1Loop]
        by_cases hall : isMoveAllowed m path.getLast? = true
        · rw [if_pos hall]
          exact searchState_dec_trans best _ _ (ih _ _ _ _ best) (ihm _ _ _ _ _)
        · rw [if_neg hall]
          exact ihm _ _ _ _ _
    intro cube g p1 path best
    simp only [phase1Search]
    set h1v := max
      (twistSlicePruning.get
        (CubieCube.getTwist cube * 495 + CubieCube.getSliceSorted cube))
      (flipSlicePruning.get
        (CubieCube.getFlip cube * 495 + CubieCube.getSliceSorted cube)) with hh1
    by_cases hguard : p1 < g + h1v ∨ best.2 ≤ g + h1v
    · rw [if_pos hguard]
      exact ⟨le_refl _, fun hne => absurd rfl hne⟩
    · rw [if_neg hguard]
      by_cases hcond : h1v = 0 ∧ g = p1
      · rw [if_pos hcond]
        by_cases hgp : g = p1
        · rw [if_pos hgp]
          exact p2BoundLoop_dec _ _ _ _ _ _
        · rw [if_neg hgp]
          exact searchState_dec_trans best _ _ (p2BoundLoop_dec _ _ _ _ _ _)
            (hloop _ _ _ _ _ _)
      · rw [if_neg hcond]
        by_cases hgp : g = p1
        · rw [if_pos hgp]
          exact ⟨le_refl _, fun hne => absurd rfl hne⟩
        · rw [if_neg hgp]
          exact hloop _ _ _ _ _ _

/-- The iterative-deepening loop of `solve` never worsens the best pair, and
whenever it changes it it strictly decreases `best_length` and stores a
solution. -/
theorem solveLoop_dec :
    ∀ r p1 cube best,
      (solveLoop p1 r cube best).2 ≤ best.2 ∧
      (solveLoop p1 r cube best ≠ best →
        (solveLoop p1 r cube best).2 < best.2 ∧
        ∃ p, (solveLoop p1 r cube best).1 = some p) := by
  intro r
  induction r with
  | zero =>
    intro p1 cube best
    simp only [solveLoop]
    exact ⟨le_refl _, fun hne => absurd rfl hne⟩
  | succ r ih =>
    intro p1 cube best
    simp only [solveLoop]
    by_cases hstop : best.2 ≤ p1
    · rw [if_pos hstop]
      exact ⟨le_refl _, fun hne => absurd rfl hne⟩
    · rw [if_neg hstop]
      exact searchState_dec_trans best _ _ (phase1Search_dec _ _ _ _ _ _) (ih _ _ _)

/-! ### The claims -/

/-- C1 (refuted; code bug): the spec claims that whenever `solve` returns a
move sequence, applying it solves the cube.  The legal state `tBad` — an even
3-cycle of edges 6, 7, 8 with all orientations zero and corners solved — is a
counterexample: because `get_slice_sorted` collapses it onto the solved
state's coordinates, `solve` returns the empty move sequence, which does not
solve it. -/
theorem C1_solve_unsound :
    Legal tBad ∧ solveMoves tBad = some [] ∧
      applyMoves tBad [] ≠ CubieCube.SOLVED :=
  ⟨by decide, solveMoves_tBad, by decide⟩

/-- C2 (amended): `get ∘ set` is the identity on the stated ranges for the
twist, flip, corner-permutation, UD-edge and slice-permutation coordinates.
For the slice coordinate the claim fails (see the counterexample). -/
theorem C2_coordinate_roundtrips :
    (∀ i < 2187, CubieCube.getTwist (CubieCube.setTwist i) = i) ∧
    (∀ i < 2048, CubieCube.getFlip (CubieCube.setFlip i) = i) ∧
    (∀ i < 40320, CubieCube.getCornerPerm (CubieCube.setCornerPerm i) = i) ∧
    (∀ i < 40320, CubieCube.getUdEdges (CubieCube.setUdEdges i) = i) ∧
    (∀ i < 24, CubieCube.getSlicePerm (CubieCube.setSlicePerm i) = i) :=
  ⟨fun i h => twist_roundtrip i h, fun i h => flip_roundtrip i h,
   fun i h => cornerPerm_roundtrip i h, fun i h => udEdges_roundtrip i h,
   fun i h => slicePerm_roundtrip i h⟩

/-- C2 counterexample: `get_slice_sorted (set_slice_sorted 0) = 3 ≠ 0`, so
the slice coordinate's `get` is not a left inverse of its `set` (the `get`
scan starts at `k = 3` and skips position 0, while `set` starts at `k = 4`). -/
theorem C2_slice_roundtrip_fails :
    CubieCube.getSliceSorted (CubieCube.setSliceSorted 0) = 3 ∧
    CubieCube.getSliceSorted (CubieCube.setSliceSorted 0) ≠ 0 := by
  constructor
  · decide
  · decide

/-- C3 (amended): the move-table law
`table[get(s)][m] = get(multiply(s, m.cubie))` holds for the twist, flip,
corner-permutation, UD-edge (Phase-2 moves) and slice-permutation (Phase-2
moves) tables, for states in each coordinate's intended domain.  For the
slice table the law fails (see the counterexample). -/
theorem C3_move_table_laws :
    (∀ (c : CubieCube) (mIdx : ℕ), c.co.length = 8 → (∀ x ∈ c.co, x < 3) →
        c.co.sum % 3 = 0 →
        twistMoveT (CubieCube.getTwist c) mIdx =
          CubieCube.getTwist (c.multiply (moveCubie mIdx))) ∧
    (∀ (c : CubieCube) (mIdx : ℕ), c.eo.length = 12 → (∀ x ∈ c.eo, x < 2) →
        c.eo.sum % 2 = 0 →
        flipMoveT (CubieCube.getFlip c) mIdx =
          CubieCube.getFlip (c.multiply (moveCubie mIdx))) ∧
    (∀ (c : CubieCube) (mIdx : ℕ), List.Perm c.cp (List.range 8) →
        cpMoveT (CubieCube.getCornerPerm c) mIdx =
          CubieCube.getCornerPerm (c.multiply (moveCubie mIdx))) ∧
    (∀ (c : CubieCube) (mIdx : ℕ), List.Perm c.ep (List.range 12) →
        (∀ y ∈ c.ep.drop 8, 8 ≤ y) → mIdx ∈ phase2MoveIdxs →
        udEdgeMoveT (CubieCube.getUdEdges c) mIdx =
          CubieCube.getUdEdges (c.multiply (moveCubie mIdx))) ∧
    (∀ (c : CubieCube) (mIdx : ℕ), List.Perm c.ep (List.range 12) →
        (∀ y ∈ c.ep.drop 8, 8 ≤ y) → mIdx ∈ phase2MoveIdxs →
        epSliceMoveT (CubieCube.getSlicePerm c) mIdx =
          CubieCube.getSlicePerm (c.multiply (moveCubie mIdx))) :=
  ⟨fun c m h1 h2 h3 => twist_move_law c h1 h2 h3 m,
   fun c m h1 h2 h3 => flip_move_law c h1 h2 h3 m,
   fun c m h => cp_move_law c h m,
   fun c m h1 h2 hm => ud_move_law c h1 h2 m hm,
   fun c m h1 h2 hm => sp_move_law c h1 h2 m hm⟩

/-- C3 counterexample: on the legal state `sliceLawCex` (its `ep` is a
permutation of `0..11`) and the move `U` (index 0), the slice move table
yields 29 while the direct computation yields 20. -/
theorem C3_slice_move_table_fails :
    List.Perm sliceLawCex.ep (List.range 12) ∧
    sliceMoveT (CubieCube.getSliceSorted sliceLawCex) 0 = 29 ∧
    CubieCube.getSliceSorted (sliceLawCex.multiply (moveCubie 0)) = 20 := by
  refine ⟨by decide, by decide, by decide⟩

/-- C4 (amended): the goal cell set to distance 0 in the Phase-1 pruning
tables is the solved state's coordinate pair, which is `(twist = 0,
slice = 220)` — cell index 220 — not `(0, 0)`; the built tables indeed hold
0 there. -/
theorem C4_goal_cell :
    CubieCube.getTwist CubieCube.SOLVED * 495 +
        CubieCube.getSliceSorted CubieCube.SOLVED = 220 ∧
    CubieCube.getFlip CubieCube.SOLVED * 495 +
        CubieCube.getSliceSorted CubieCube.SOLVED = 220 ∧
    twistSlicePruning.get 220 = 0 ∧ flipSlicePruning.get 220 = 0 :=
  ⟨by decide, by decide, twistSlicePruning_start, flipSlicePruning_start⟩

/-- C4 counterexample: the solved state's coordinate pair is not the cell
`(twist = 0, slice = 0)` claimed by the spec's table, because
`get_slice_sorted(SOLVED) = 220 ≠ 0`. -/
theorem C4_goal_cell_cex :
    CubieCube.getTwist CubieCube.SOLVED * 495 +
      CubieCube.getSliceSorted CubieCube.SOLVED ≠ 0 * 495 + 0 := by decide

/-- C5: every state reachable from `SOLVED` by a finite sequence of moves
has corner-orientation sum divisible by 3, edge-orientation sum divisible
by 2, and equal corner and edge permutation parities. -/
theorem C5_reachable_invariants :
    ∀ ms : List Turn,
      (applyMoves CubieCube.SOLVED ms).co.sum % 3 = 0 ∧
      (applyMoves CubieCube.SOLVED ms).eo.sum % 2 = 0 ∧
      invCount (applyMoves CubieCube.SOLVED ms).cp % 2 =
        invCount (applyMoves CubieCube.SOLVED ms).ep % 2 := by
  intro ms
  obtain ⟨_, _, _, _, _, _, h7, h8, h9⟩ :=
    legal_applyMoves ms CubieCube.SOLVED legal_SOLVED
  exact ⟨h7, h8, h9⟩

/-- C6: every one of the 18 moves is in `ALL`, its cubie has order dividing
4 (four applications give `SOLVED`), and every half-turn already gives
`SOLVED` after two applications. -/
theorem C6_move_orders :
    ∀ m : Turn, m ∈ Turn.ALL ∧
      ((m.toCubie.multiply m.toCubie).multiply (m.toCubie.multiply m.toCubie) =
        CubieCube.SOLVED) ∧
      (m ∈ ([Turn.U2, Turn.R2, Turn.F2, Turn.D2, Turn.L2, Turn.B2] : List Turn) →
        m.toCubie.multiply m.toCubie = CubieCube.SOLVED) := by
  intro m
  refine ⟨?_, ?_, ?_⟩ <;> cases m <;> decide

/-- C7: `is_move_allowed` is fully characterised: always true with no
previous move; false on equal faces; on equal axes with different faces it
is true exactly when the previous face index is smaller, so exactly one of
the two orders of an opposite-face pair is allowed. -/
theorem C7_is_move_allowed_characterisation :
    (∀ c : Turn, isMoveAllowed c none = true) ∧
    (∀ c l : Turn, Turn.face c = Turn.face l → isMoveAllowed c (some l) = false) ∧
    (∀ c l : Turn, Turn.axis c = Turn.axis l → Turn.face c ≠ Turn.face l →
      (isMoveAllowed c (some l) = true ↔ Turn.face l < Turn.face c)) ∧
    (∀ c l : Turn, Turn.axis c = Turn.axis l → Turn.face c ≠ Turn.face l →
      (isMoveAllowed c (some l) = true ↔ ¬ isMoveAllowed l (some c) = true)) := by
  refine ⟨?_, ?_, ?_, ?_⟩
  · intro c
    cases c <;> decide
  · intro c l
    cases c <;> cases l <;> decide
  · intro c l
    cases c <;> cases l <;> decide
  · intro c l
    cases c <;> cases l <;> decide

/-- C8: solver bookkeeping.  (1) A Phase-2 solution found from depth `g`
with bound `p2Bound` has total length `path.length + (p2Bound - g)`; (2) at
a G1 leaf at depth `g` (with `g < best_length ≤ 255`, as the guards ensure)
the handoff tries exactly the bounds `0 .. best_length - g - 1`, and any
recorded solution has total length `g + p2 < best_length`, which becomes the
new best length; (3) and (4): `phase1_search` and the deepening loop of
`solve` never worsen the best pair and strictly decrease `best_length` every
time they change it, so the sequence of recorded best lengths is strictly
decreasing and the returned solution is the shortest recorded. -/
theorem C8_solver_bookkeeping :
    (∀ fuel cube g p2Bound path fp,
        phase2Search fuel cube g p2Bound path = some fp →
        g ≤ p2Bound ∧ fp.length = path.length + (p2Bound - g)) ∧
    (∀ (cube : CubieCube) (g : ℕ) (path : List Turn) (best : SearchState),
        best.2 ≤ 255 → g < best.2 →
        maxP2Bound best.2 g + 1 = best.2 - g ∧
        (p2BoundLoop 0 (maxP2Bound best.2 g + 1) cube g path best = best ∨
         ∃ p2 fp, p2 ≤ best.2 - g - 1 ∧
           p2BoundLoop 0 (maxP2Bound best.2 g + 1) cube g path best =
             (some fp, g + p2) ∧
           g + p2 < best.2 ∧ fp.length = path.length + p2)) ∧
    (∀ fuel cube g p1Bound path best,
        (phase1Search fuel cube g p1Bound path best).2 ≤ best.2 ∧
        (phase1Search fuel cube g p1Bound path best ≠ best →
          (phase1Search fuel cube g p1Bound path best).2 < best.2 ∧
          ∃ p, (phase1Search fuel cube g p1Bound path best).1 = some p)) ∧
    (∀ p1Bound r cube best,
        (solveLoop p1Bound r cube best).2 ≤ best.2 ∧
        (solveLoop p1Bound r cube best ≠ best →
          (solveLoop p1Bound r cube best).2 < best.2 ∧
          ∃ p, (solveLoop p1Bound r cube best).1 = some p)) := by
  refine ⟨phase2Search_some_length, ?_, phase1Search_dec,
    fun p1 r cube best => solveLoop_dec r p1 cube best⟩
  intro cube g path best hb hg
  have hmax : maxP2Bound best.2 g = best.2 - g - 1 := maxP2Bound_eq best.2 g hb hg
  refine ⟨by omega, ?_⟩
  rcases p2BoundLoop_spec (maxP2Bound best.2 g + 1) 0 cube g path best with h |
    ⟨p2, fp, _, hlt, hc, heq, hbest⟩
  · exact Or.inl h
  · right
    obtain ⟨_, hlen⟩ := phase2Search_some_length _ _ _ _ _ _ hc
    exact ⟨p2, fp, by omega, heq, hbest, by simpa using hlen⟩

/-- C9: whenever `phase1_search` reaches the `max_p2 = best_length - g - 1`
subtraction, the earlier `g + h1 >= best_length → return` guard guarantees
`g < best_length`, so neither `u8` subtraction wraps and `maxP2Bound` is the
well-defined non-negative bound `best_length - g - 1`. -/
theorem C9_no_wraparound (best g h1 : ℕ) (hb : best ≤ 255)
    (hguard : ¬ (best ≤ g + h1)) :
    g < best ∧ u8sub best g = best - g ∧ maxP2Bound best g = best - g - 1 := by
  simp only [maxP2Bound, u8sub]
  omega

/-- C9 witness: the initial call site, `best_length = 23`, `g = h1 = 0`. -/
theorem C9_no_wraparound_witness :
    0 < 23 ∧ u8sub 23 0 = 23 - 0 ∧ maxP2Bound 23 0 = 23 - 0 - 1 :=
  C9_no_wraparound 23 0 0 (by norm_num) (by norm_num)

/-- C10: on a well-formed nibble array (`⌈length/2⌉` backing bytes, each
`< 256`), `set i v` followed by `get i` returns `v` for `v ≤ 15`, `get` at
any other index is unchanged by `set`, and a fresh `new(size, 15)` array
reads 15 at every index below `size`. -/
theorem C10_nibble_array_laws :
    (∀ (a : NibbleArray) (i v : ℕ), BytesLT a →
        a.data.length = (a.length + 1) / 2 → i < a.length → v ≤ 15 →
        (a.set i v).get i = v) ∧
    (∀ (a : NibbleArray) (i j v : ℕ), BytesLT a → i ≠ j →
        (a.set i v).get j = a.get j) ∧
    (∀ size i : ℕ, i < size → (NibbleArray.new size 15).get i = 15) := by
  refine ⟨fun a i v hB hlen hi hv => ?_,
    fun a i j v hB hne => nibble_get_set_ne a i j v hB hne,
    fun size i hi => nibble_get_new size 15 i hi (by norm_num)⟩
  exact nibble_get_set_self a i v hB (by omega) hv
